import Mathlib

/-!
Verification development for the embedded array-field core of gt4py
(`gt4py/next/embedded/nd_array_field.py`, `function_field.py`,
`exceptions.py`).

The domain/range algebra (`gt4py/next/common.py`) and the shared embedded
helpers (`gt4py/next/embedded/common.py`) are not part of the analysed
sources; definitions taken from the specification document instead of the
code carry a doc comment starting with `Modelled from the spec:`.

Machine integers do not overflow in the relevant flows; unbounded range
endpoints are represented by a large sentinel (mirroring the
`Infinity(int)` representation with `sys.maxsize` used by the library).
-/

/-- Sentinel used for unbounded range endpoints (plays the role of
`Infinity.positive()`; the library represents infinities as huge ints). -/
def INF : Int := 2 ^ 62

/-- Modelled from the spec: a dimension kind tag
(horizontal/vertical/local). -/
inductive DimensionKind where
  | horizontal
  | vertical
  | localK
deriving DecidableEq, Repr

/-- Modelled from the spec: a Dimension is an identifier (name + kind tag)
used to label an axis; dimensions are compared by equality, not position. -/
structure Dimension where
  value : String
  kind : DimensionKind := DimensionKind.horizontal
deriving DecidableEq, Repr

/-- Modelled from the spec: a half-open integer interval `[start, stop)`
along one dimension; either end may be unbounded (sentinel `±INF`). -/
structure UnitRange where
  start : Int
  stop : Int
deriving DecidableEq, Repr

/-- The fully unbounded range `UnitRange.infinity()`. -/
def UnitRange.infinity : UnitRange := ⟨-INF, INF⟩

/-- Length `stop - start` of a range. -/
def UnitRange.len (r : UnitRange) : Int := r.stop - r.start

/-- Length of a range as a natural number (array axis size). -/
def UnitRange.lenNat (r : UnitRange) : Nat := (r.stop - r.start).toNat

/-- Modelled from the spec: range constructor maintaining the invariant
`start <= stop`; an empty interval is normalized to the empty range. -/
def unitRange (start stop : Int) : UnitRange :=
  if start < stop then ⟨start, stop⟩ else ⟨0, 0⟩

/-- Modelled from the spec: range intersection `(max(start), min(stop))`. -/
def UnitRange.inter (r q : UnitRange) : UnitRange :=
  unitRange (max r.start q.start) (min r.stop q.stop)

/-- Membership of an integer index in a range. -/
def UnitRange.containsIdx (r : UnitRange) (i : Int) : Bool :=
  r.start ≤ i && i < r.stop

/-- A range is bounded when both endpoints are strictly inside the
sentinels. -/
def UnitRange.bounded (r : UnitRange) : Bool :=
  (-INF < r.start) && (r.start ≤ r.stop) && (r.stop < INF)

/-- A range is well-formed when it is bounded or exactly the unbounded
placeholder. -/
def rangeOk (r : UnitRange) : Bool :=
  r.bounded || r == UnitRange.infinity

/-- Modelled from the spec: a Domain is an ordered sequence of
(Dimension, Range) pairs, dimensions unique within a domain. -/
structure Domain where
  pairs : List (Dimension × UnitRange)
deriving DecidableEq, Repr

/-- The dimensions of a domain, in axis order. -/
def Domain.dims (d : Domain) : List Dimension := d.pairs.map Prod.fst

/-- The ranges of a domain, in axis order. -/
def Domain.ranges (d : Domain) : List UnitRange := d.pairs.map Prod.snd

/-- The empty (scalar) domain. -/
def Domain.empty : Domain := ⟨[]⟩

/-- Range associated with a dimension in a domain, when present. -/
def Domain.lookupRange (d : Domain) (dim : Dimension) : Option UnitRange :=
  (d.pairs.find? (fun p => p.1 == dim)).map Prod.snd

/-- Whether a domain contains a dimension. -/
def Domain.hasDim (d : Domain) (dim : Dimension) : Bool :=
  d.dims.contains dim

/-- Modelled from the spec: the dimension-ordered union of two axis lists
(missing `common.promote_dims`): the first list followed by the dimensions
of the second not already present. -/
def promote_dims (d1 d2 : List Dimension) : List Dimension :=
  d1 ++ d2.filter (fun d => !(d1.contains d))

/-- Modelled from the spec: domain intersection (missing
`common.Domain.__and__`): compute the dimension-ordered union of both
domains' axes, broadcast each operand to that axis order (unbounded ranges
for dimensions an operand lacks), and intersect the ranges pointwise. -/
def Domain.inter (a b : Domain) : Domain :=
  ⟨(promote_dims a.dims b.dims).map (fun d =>
    (d, UnitRange.inter ((a.lookupRange d).getD UnitRange.infinity)
                        ((b.lookupRange d).getD UnitRange.infinity)))⟩

/-- An entry named for a dimension in a domain-style index specification:
a sub-range, a single integer index, or a value of any other type. -/
inductive EntryVal where
  | rng (r : UnitRange)
  | idx (i : Int)
  | other
deriving DecidableEq, Repr

/-- A domain-style index specification: a sequence of named entries. -/
abbrev DomainSlice := List (Dimension × EntryVal)

/-- Modelled from the spec: position of a dimension in a domain slice
(missing `embedded_common._find_index_of_dim`). -/
def _find_index_of_dim (dim : Dimension) (domain_slice : DomainSlice) : Option Nat :=
  domain_slice.findIdx? (fun p => p.1 == dim)

/-- The entry named for a dimension in a domain slice
(`domain_slice[pos][1]` after `_find_index_of_dim`). -/
def lookupEntry (domain_slice : DomainSlice) (dim : Dimension) : Option EntryVal :=
  match _find_index_of_dim dim domain_slice with
  | some pos => some ((domain_slice.getD pos (dim, EntryVal.other)).2)
  | none => none

/-- A domain viewed as a domain slice (a `Domain` is itself a valid
sequence of named ranges). -/
def Domain.toSlice (d : Domain) : DomainSlice :=
  d.pairs.map (fun p => (p.1, EntryVal.rng p.2))

/-- The Python exception classes that the analysed code can raise
(`exceptions.py` defines the gt4py-specific ones). -/
inductive PyErr where
  | assertionError
  | valueError
  | indexError
  | typeError
  | notImplementedError
  | indexOutOfBounds
  | emptyDomainIndexError
  | invalidDomainForNdarrayError
  | infiniteRangeNdarrayError
deriving DecidableEq, Repr

/-- A backend numeric array: a shape together with a total valuation of
multi-indices (row-major data layout is irrelevant to the properties
considered; indices outside the shape are unconstrained). -/
structure NdArray (α : Type) where
  shape : List Nat
  val : List Nat → α

/-- A buffer-axis selector: `slice(a, b)`, `slice(None)`, an integer
index (dropping the axis), or `np.newaxis` (inserting a size-1 axis). -/
inductive Sel where
  | all
  | sl (a b : Int)
  | idx (i : Int)
  | newaxis
deriving DecidableEq, Repr

/-- Python slice-start normalization for an axis of length `n`:
negative values count from the end, out-of-range values are clamped. -/
def normStart (a : Int) (n : Nat) : Nat :=
  if a < 0 then ((n : Int) + a).toNat else min a.toNat n

/-- Python slice-stop normalization (same rule as the start). -/
def normStop (b : Int) (n : Nat) : Nat := normStart b n

/-- Number of elements selected by `slice(a, b)` on an axis of length `n`. -/
def sliceLenPy (a b : Int) (n : Nat) : Nat := normStop b n - normStart a n

/-- Python integer-index normalization (negative indices count from the
end; out-of-range indices only arise in flows the library never takes). -/
def pyIdx (i : Int) (n : Nat) : Nat :=
  if i < 0 then ((n : Int) + i).toNat else i.toNat

/-- Shape of the result of indexing an array of shape `sh` with a selector
tuple, following numpy basic indexing (step 1 only). -/
def sliceShape : List Sel → List Nat → List Nat
  | [], sh => sh
  | Sel.newaxis :: rest, sh => 1 :: sliceShape rest sh
  | Sel.all :: rest, n :: sh => n :: sliceShape rest sh
  | Sel.sl a b :: rest, n :: sh => sliceLenPy a b n :: sliceShape rest sh
  | Sel.idx _ :: rest, _ :: sh => sliceShape rest sh
  | _ :: _, [] => []

/-- Map a multi-index of the sliced array back to a multi-index of the
original array. -/
def sliceCoord : List Sel → List Nat → List Nat → List Nat
  | [], _, c => c
  | Sel.newaxis :: rest, sh, c => sliceCoord rest sh c.tail
  | Sel.all :: rest, _ :: sh, c => c.headD 0 :: sliceCoord rest sh c.tail
  | Sel.sl a _ :: rest, n :: sh, c => (normStart a n + c.headD 0) :: sliceCoord rest sh c.tail
  | Sel.idx i :: rest, n :: sh, c => pyIdx i n :: sliceCoord rest sh c
  | _ :: _, [], c => c

/-- Basic indexing `a[sels]` of a backend array. -/
def NdArray.getItem (a : NdArray α) (sels : List Sel) : NdArray α :=
  ⟨sliceShape sels a.shape, fun c => a.val (sliceCoord sels a.shape c)⟩

/-- Numpy shape broadcasting for one axis (length-1 axes stretch;
incompatible shapes never arise in the analysed flows). -/
def bcastDim (m n : Nat) : Nat := if m = 1 then n else m

/-- Map a multi-index of a broadcast result to a multi-index of an
operand of shape `sh` (length-1 axes read index 0). -/
def bcastCoord (sh : List Nat) (c : List Nat) : List Nat :=
  List.zipWith (fun n ci => if n = 1 then 0 else ci) sh c

/-- Elementwise binary operation with numpy broadcasting. -/
def NdArray.binop (op : α → α → α) (a b : NdArray α) : NdArray α :=
  ⟨List.zipWith bcastDim a.shape b.shape,
   fun c => op (a.val (bcastCoord a.shape c)) (b.val (bcastCoord b.shape c))⟩

/-- Elementwise unary operation (array-scalar variants of the backend
primitives). -/
def NdArray.mapVal (op : α → β) (a : NdArray α) : NdArray β :=
  ⟨a.shape, fun c => op (a.val c)⟩

/-- `np.full(shape, v)`. -/
def NdArray.full (shape : List Nat) (v : α) : NdArray α :=
  ⟨shape, fun _ => v⟩

/-- `np.fromfunction(f, shape)` for a pointwise generator. -/
def NdArray.fromfunction (shape : List Nat) (f : List Int → α) : NdArray α :=
  ⟨shape, fun c => f (c.map Int.ofNat)⟩

/-- Does a multi-index of the full array fall inside the region selected
by a selector tuple (used for indexed assignment)? -/
def inRegion : List Sel → List Nat → List Nat → Bool
  | [], _, _ => true
  | Sel.newaxis :: rest, sh, c => inRegion rest sh c.tail
  | Sel.all :: rest, _ :: sh, c => inRegion rest sh c.tail
  | Sel.sl a b :: rest, n :: sh, c =>
      (decide (normStart a n ≤ c.headD 0) && decide (c.headD 0 < normStop b n))
        && inRegion rest sh c.tail
  | Sel.idx i :: rest, n :: sh, c =>
      (c.headD 0 == pyIdx i n) && inRegion rest sh c.tail
  | _ :: _, [], _ => true

/-- Map a multi-index inside the selected region to the corresponding
multi-index of the assigned value. -/
def regionCoord : List Sel → List Nat → List Nat → List Nat
  | [], _, c => c
  | Sel.newaxis :: rest, sh, c => regionCoord rest sh c
  | Sel.all :: rest, _ :: sh, c => c.headD 0 :: regionCoord rest sh c.tail
  | Sel.sl a _ :: rest, n :: sh, c => (c.headD 0 - normStart a n) :: regionCoord rest sh c.tail
  | Sel.idx _ :: rest, _ :: sh, c => regionCoord rest sh c.tail
  | _ :: _, [], c => c

/-- In-place region assignment `a[sels] = src` (the assigned value is
broadcast over length-1 axes, as numpy does). -/
def NdArray.setItemRegion (a : NdArray α) (sels : List Sel) (src : NdArray α) : NdArray α :=
  ⟨a.shape, fun c =>
    if inRegion sels a.shape c then src.val (bcastCoord src.shape (regionCoord sels a.shape c))
    else a.val c⟩

/-- Modelled from the spec: `sub_domain` body (missing
`embedded_common.sub_domain`): for each axis, a named integer drops the
axis after a bounds check (`IndexOutOfBounds` on failure), a named
sub-range replaces the axis range with the intersection of the axis range
and the given range, an unnamed axis is kept unchanged; a named entry of
any other type is a domain error. -/
def subDomainPairs (index : DomainSlice) :
    List (Dimension × UnitRange) → Except PyErr (List (Dimension × UnitRange))
  | [] => pure []
  | (d, r) :: rest =>
    match lookupEntry index d with
    | none => (subDomainPairs index rest).map (fun t => (d, r) :: t)
    | some (EntryVal.rng q) => (subDomainPairs index rest).map (fun t => (d, UnitRange.inter r q) :: t)
    | some (EntryVal.idx i) =>
        if r.containsIdx i then subDomainPairs index rest
        else Except.error PyErr.indexOutOfBounds
    | some EntryVal.other => Except.error PyErr.valueError

/-- Modelled from the spec: `sub_domain(domain, indexSpec)` (missing
`embedded_common.sub_domain`); fails with `EmptyDomainIndexError` if the
domain has zero dimensions and the index specification is non-trivial. -/
def sub_domain (domain : Domain) (index : DomainSlice) : Except PyErr Domain :=
  if domain.pairs.length = 0 ∧ index ≠ [] then Except.error PyErr.emptyDomainIndexError
  else (subDomainPairs index domain.pairs).map Domain.mk

/-- `_compute_slice(rng, domain, pos)` from `nd_array_field.py`: a named
range on an unbounded axis collapses to `slice(None)`, otherwise it is
offset by the axis's own start; a named integer becomes a relative
offset; any other value raises `ValueError`. -/
def _compute_slice (rng : EntryVal) (domain : Domain) (pos : Nat) : Except PyErr Sel :=
  match rng with
  | EntryVal.rng r =>
      if domain.ranges.getD pos UnitRange.infinity = UnitRange.infinity then
        pure Sel.all
      else
        pure (Sel.sl (r.start - (domain.ranges.getD pos UnitRange.infinity).start)
                     (r.stop - (domain.ranges.getD pos UnitRange.infinity).start))
  | EntryVal.idx i => pure (Sel.idx (i - (domain.ranges.getD pos UnitRange.infinity).start))
  | EntryVal.other => Except.error PyErr.valueError

/-- The `for pos_old, (dim, _) in enumerate(domain)` loop of
`_get_slices_from_domain_slice`. -/
def slicesGo (domain : Domain) (domain_slice : DomainSlice) :
    List (Dimension × UnitRange) → Nat → Except PyErr (List Sel)
  | [], _ => pure []
  | (dim, _) :: rest, pos_old =>
    match lookupEntry domain_slice dim with
    | some index_or_range => do
        let s ← _compute_slice index_or_range domain pos_old
        let t ← slicesGo domain domain_slice rest (pos_old + 1)
        pure (s :: t)
    | none => (slicesGo domain domain_slice rest (pos_old + 1)).map (fun t => Sel.all :: t)

/-- `_get_slices_from_domain_slice(domain, domain_slice)` from
`nd_array_field.py`: one buffer selector per axis of the domain, in
order; unnamed axes get `slice(None)`. -/
def _get_slices_from_domain_slice (domain : Domain) (domain_slice : DomainSlice) :
    Except PyErr (List Sel) :=
  slicesGo domain domain_slice domain.pairs 0

/-- An array-backed field (`_BaseNdArrayField`): a domain and an owned
buffer. The element type stands for the backend dtype. -/
structure BaseNdArrayField (α : Type) where
  _domain : Domain
  _ndarray : NdArray α

/-- `domain` property. -/
def BaseNdArrayField.domain (f : BaseNdArrayField α) : Domain := f._domain

/-- `ndarray` property. -/
def BaseNdArrayField.ndarray (f : BaseNdArrayField α) : NdArray α := f._ndarray

/-- `from_array(data, domain=...)`: asserts that the buffer rank equals
the domain length and that each axis length matches the domain range
length, or is a length-1 placeholder for an unbounded range (a failed
Python `assert` is an `AssertionError`; the dtype checks concern only the
backend scalar type and are vacuous here). -/
def from_array (data : NdArray α) (domain : Domain) : Except PyErr (BaseNdArrayField α) :=
  if domain.pairs.length = data.shape.length
     ∧ (List.zip domain.ranges data.shape).all
         (fun p => (p.1.len == (p.2 : Int)) || (p.2 == 1 && p.1 == UnitRange.infinity))
  then pure ⟨domain, data⟩
  else Except.error PyErr.assertionError

/-- Result of `restrict`: a field, or a scalar when the resulting domain
has zero dimensions. -/
inductive FieldOrScalar (α : Type) where
  | field (f : BaseNdArrayField α)
  | scalar (v : α)

/-- `_BaseNdArrayField._slice(index)`: the new domain via `sub_domain`
and the buffer selector tuple via `_get_slices_from_domain_slice` (the
analysed index specifications are domain-style, so the translation branch
is always taken). -/
def BaseNdArrayField._slice (f : BaseNdArrayField α) (index : DomainSlice) :
    Except PyErr (Domain × List Sel) := do
  let new_domain ← sub_domain f.domain index
  let slice_ ← _get_slices_from_domain_slice f.domain index
  pure (new_domain, slice_)

/-- `_BaseNdArrayField.restrict(index)`: slice the buffer; a
zero-dimension result domain yields the scalar buffer element (after the
`is_scalar_type` assertion), otherwise a new field is built with
`from_array`. -/
def BaseNdArrayField.restrict (f : BaseNdArrayField α) (index : DomainSlice) :
    Except PyErr (FieldOrScalar α) := do
  let ds ← f._slice index
  let new_buffer := f.ndarray.getItem ds.2
  if ds.1.pairs.length = 0 then
    if new_buffer.shape = [] then pure (FieldOrScalar.scalar (new_buffer.val []))
    else Except.error PyErr.assertionError
  else
    (from_array new_buffer ds.1).map FieldOrScalar.field

/-- Modelled from the spec: `_compute_new_domain_info(field, new_dims)`
(missing from `embedded_common`): the broadcast dims are the requested
ones; an axis the field has keeps its range and a full `slice(None)`
selector, a missing axis gets an unbounded range and `np.newaxis`. -/
def _compute_new_domain_info (f : BaseNdArrayField α) (new_dimensions : List Dimension) :
    List Dimension × List UnitRange × List Sel :=
  (new_dimensions,
   new_dimensions.map (fun d => (f.domain.lookupRange d).getD UnitRange.infinity),
   new_dimensions.map (fun d => if f.domain.hasDim d then Sel.all else Sel.newaxis))

/-- `_broadcast(field, new_dimensions)` from `nd_array_field.py`:
index the buffer with the computed selector tuple and rebuild a field
over the broadcast domain (`common.field` dispatches to `from_array`). -/
def _broadcast (f : BaseNdArrayField α) (new_dimensions : List Dimension) :
    Except PyErr (BaseNdArrayField α) :=
  let info := _compute_new_domain_info f new_dimensions
  from_array (f.ndarray.getItem info.2.2) ⟨List.zip info.1 info.2.1⟩

/-- The second operand of a binary intrinsic: a field or a scalar
(`core_defs.SCALAR_TYPES`). -/
inductive BinOperand (α : Type) where
  | field (b : BaseNdArrayField α)
  | scalar (v : α)

/-- `_make_binary_array_field_intrinsic_func`'s `_builtin_binary_op`,
with the backend primitive abstracted as a pointwise operation: equal
domains apply the primitive directly; differing domains intersect,
broadcast both operands, slice both down to the intersection, and wrap
the result over the intersection; a scalar operand applies uniformly. -/
def _builtin_binary_op (op : α → α → α) (a : BaseNdArrayField α) (b : BinOperand α) :
    Except PyErr (BaseNdArrayField α) :=
  match b with
  | BinOperand.field b =>
      if a.domain = b.domain then
        from_array (a.ndarray.binop op b.ndarray) a.domain
      else do
        let domain_intersection := a.domain.inter b.domain
        let a_broadcasted ← _broadcast a domain_intersection.dims
        let b_broadcasted ← _broadcast b domain_intersection.dims
        let a_slices ← _get_slices_from_domain_slice a_broadcasted.domain domain_intersection.toSlice
        let b_slices ← _get_slices_from_domain_slice b_broadcasted.domain domain_intersection.toSlice
        let new_data := (a_broadcasted.ndarray.getItem a_slices).binop op
                          (b_broadcasted.ndarray.getItem b_slices)
        from_array new_data domain_intersection
  | BinOperand.scalar v =>
      from_array (a.ndarray.mapVal (fun x => op x v)) a.domain

/-- The value assigned by `__setitem__`: a field, or a raw array/scalar. -/
inductive AssignValue (α : Type) where
  | field (g : BaseNdArrayField α)
  | raw (a : NdArray α)

/-- `_np_cp_setitem(self, index, value)`: compute the target selector via
`_slice`; a field value must have exactly the target sub-domain
(`ValueError` otherwise); the owned buffer is mutated in place at the
selector and the field's domain is unchanged. -/
def _np_cp_setitem (f : BaseNdArrayField α) (index : DomainSlice) (value : AssignValue α) :
    Except PyErr (BaseNdArrayField α) := do
  let ds ← f._slice index
  let v : NdArray α ←
    match value with
    | AssignValue.field g =>
        if g.domain = ds.1 then pure g.ndarray else Except.error PyErr.valueError
    | AssignValue.raw a => pure a
  pure ⟨f._domain, f.ndarray.setItemRegion ds.2 v⟩

namespace Embedded

/-- A lazily evaluated function field (`FunctionField`): a generator of
axis-relative integer coordinates, a domain, and the constant-variant
flag. -/
structure FunctionField (α : Type) where
  func : List Int → α
  domain : Domain := Domain.empty
  _constant : Bool := false

/-- `_has_empty_domain(field)`. -/
def _has_empty_domain (f : FunctionField α) : Bool :=
  f.domain.pairs.length < 1

/-- `FunctionField.restrict(index)`: a plain `IndexError` when the domain
is empty, otherwise the narrowed domain with the same generator (the
constant flag is not forwarded). -/
def FunctionField.restrict (f : FunctionField α) (index : DomainSlice) :
    Except PyErr (FunctionField α) := do
  if _has_empty_domain f then Except.error PyErr.indexError
  else do
    let new_domain ← sub_domain f.domain index
    pure ⟨f.func, new_domain, false⟩

end Embedded

/-- The `Infinity.positive() in (abs(rng.start), abs(rng.stop))` test of
`FunctionField.ndarray`: does either endpoint have infinite magnitude? -/
def UnitRange.unboundedEnd (r : UnitRange) : Bool :=
  r.start.natAbs == INF.toNat || r.stop.natAbs == INF.toNat

/-- The shape-collection loop of `FunctionField.ndarray`: a plain
`ValueError` at the first axis with an infinite endpoint, otherwise the
list of axis lengths. -/
def shapeOf : List (Dimension × UnitRange) → Except PyErr (List Nat)
  | [] => pure []
  | p :: rest =>
      if p.2.unboundedEnd then Except.error PyErr.valueError
      else (shapeOf rest).map (fun t => p.2.lenNat :: t)

namespace Embedded

/-- `FunctionField.ndarray`: a plain `ValueError` when the domain is
empty or an axis range has an infinite endpoint; otherwise `np.full` of
the precomputed constant, or `np.fromfunction` over the generator. -/
def FunctionField.ndarray (f : FunctionField α) : Except PyErr (NdArray α) := do
  if _has_empty_domain f then Except.error PyErr.valueError
  else do
    let shape ← shapeOf f.domain.pairs
    if f._constant then pure (NdArray.full shape (f.func []))
    else pure (NdArray.fromfunction shape f.func)

/-- `constant_field(value, domain)`: a function field whose generator
ignores its arguments, with the constant flag set. -/
def constant_field (value : α) (domain : Domain := Domain.empty) : FunctionField α :=
  ⟨fun _ => value, domain, true⟩

end Embedded

/-- Modelled from the spec: built-in operation identifiers
(`fbuiltins.BuiltInFunction`, not part of the analysed sources) are
opaque keys. -/
abbrev BuiltInFunction := Nat

/-- `register_builtin_func(op, op_func)` acting on the class-level
builtin-function map (an insertion-ordered dictionary modelled as an
association list): asserts the operation is not yet registered, then
inserts (`dict.setdefault` appends a new key at the end). -/
def register_builtin_func (m : List (BuiltInFunction × β)) (op : BuiltInFunction) (op_func : β) :
    Except PyErr (List (BuiltInFunction × β)) :=
  if m.any (fun p => p.1 == op) then Except.error PyErr.assertionError
  else pure (m ++ [(op, op_func)])

/-- `__gt_builtin_func__(func)`: dictionary lookup returning the
registered implementation, or `NotImplemented` (`none`). -/
def gt_builtin_func (m : List (BuiltInFunction × β)) (op : BuiltInFunction) : Option β :=
  (m.find? (fun p => p.1 == op)).map Prod.snd

/-- The module-load registration sequence (`nd_array_field.py` registers
each builtin once, in order), folded over `register_builtin_func`. -/
def registerAll (ops : List (BuiltInFunction × β)) (m : List (BuiltInFunction × β)) :
    Except PyErr (List (BuiltInFunction × β)) :=
  match ops with
  | [] => pure m
  | (op, f) :: rest => do
      let m' ← register_builtin_func m op f
      registerAll rest m'

/-- Relative buffer coordinate of an absolute index `x` on an axis with
range `r` and buffer size `s` (a size-1 placeholder axis for an unbounded
range always reads position 0). -/
def fieldRelCoord (r : UnitRange) (s : Nat) (x : Int) : Nat :=
  if s = 1 ∧ r = UnitRange.infinity then 0 else (x - r.start).toNat

/-- Buffer multi-index corresponding to an absolute coordinate
assignment `σ` on a field. -/
def fieldCoords (f : BaseNdArrayField α) (σ : Dimension → Int) : List Nat :=
  List.zipWith (fun (p : Dimension × UnitRange) s => fieldRelCoord p.2 s (σ p.1))
    f.domain.pairs f.ndarray.shape

/-- Value of an array-backed field at an absolute coordinate assignment. -/
def fieldValueAt (f : BaseNdArrayField α) (σ : Dimension → Int) : α :=
  f.ndarray.val (fieldCoords f σ)

/-- A coordinate assignment lies in a domain when each axis range
contains its coordinate. -/
def inDomain (D : Domain) (σ : Dimension → Int) : Prop :=
  ∀ p ∈ D.pairs, p.2.containsIdx (σ p.1) = true

/-- Well-formedness of an array-backed field, as established by
`from_array` together with the domain invariants: unique dimensions,
rank match, per-axis length match (or unbounded placeholder), sane
ranges and sizes. -/
def wfb (f : BaseNdArrayField α) : Bool :=
  decide f.domain.dims.Nodup
    && f.domain.pairs.length == f.ndarray.shape.length
    && (List.zip f.domain.ranges f.ndarray.shape).all
         (fun p => (p.1.len == (p.2 : Int)) || (p.2 == 1 && p.1 == UnitRange.infinity))
    && f.domain.ranges.all rangeOk
    && f.ndarray.shape.all (fun s => s < INF.toNat)

/-- Extensional equality of backend arrays: same shape and same values at
every in-bounds multi-index. -/
def NdArray.extEq (a b : NdArray α) : Prop :=
  a.shape = b.shape ∧ ∀ c, List.Forall₂ (· < ·) c a.shape → a.val c = b.val c

/-- Extensional equality of array-backed fields. -/
def FieldEquiv (f g : BaseNdArrayField α) : Prop :=
  f.domain = g.domain ∧ f.ndarray.extEq g.ndarray

/-- Reduction of `bind` on a successful `Except`. -/
theorem ebind_ok (a : A) (f : A → Except PyErr B) : (Except.ok a >>= f) = f a := rfl

/-- Reduction of `bind` on a failed `Except`. -/
theorem ebind_err (e : PyErr) (f : A → Except PyErr B) :
    ((Except.error e : Except PyErr A) >>= f) = Except.error e := rfl

/-- Reduction of `bind` after `pure` on `Except`. -/
theorem epure_bind (a : A) (f : A → Except PyErr B) : ((pure a : Except PyErr A) >>= f) = f a := rfl

/-- Reduction of `Except.map` on a success. -/
theorem emap_ok (a : A) (f : A → B) :
    (Except.map f (Except.ok a : Except PyErr A)) = Except.ok (f a) := rfl

/-- Reduction of `Except.map` on a failure. -/
theorem emap_err (e : PyErr) (f : A → B) :
    (Except.map f (Except.error e : Except PyErr A)) = Except.error e := rfl

/-- Example dimension `I`. -/
def dimI : Dimension := ⟨"I", DimensionKind.horizontal⟩

/-- Example dimension `J`. -/
def dimJ : Dimension := ⟨"J", DimensionKind.horizontal⟩

/-- Example field over `{(I, [0,10))}` with values `0..9`. -/
def fieldI010 : BaseNdArrayField Int :=
  ⟨⟨[(dimI, ⟨0, 10⟩)]⟩, ⟨[10], fun c => (c.headD 0 : Int)⟩⟩

/-- Example field over `{(I, [5,15))}` with values `100..109`. -/
def fieldI515 : BaseNdArrayField Int :=
  ⟨⟨[(dimI, ⟨5, 15⟩)]⟩, ⟨[10], fun c => 100 + (c.headD 0 : Int)⟩⟩

/-- If no axis has an infinite endpoint, the shape loop returns all axis
lengths. -/
theorem shapeOf_ok (l : List (Dimension × UnitRange))
    (h : ∀ p ∈ l, p.2.unboundedEnd = false) :
    shapeOf l = Except.ok (l.map (fun p => p.2.lenNat)) := by
  induction l with
  | nil => rfl
  | cons p rest ih =>
      have hp := h p (by simp)
      simp only [shapeOf, hp, if_neg, Bool.false_eq_true, not_false_iff, List.map_cons]
      rw [ih (fun q hq => h q (List.mem_cons_of_mem _ hq))]
      rfl

/-- If some axis has an infinite endpoint, the shape loop raises a plain
`ValueError`. -/
theorem shapeOf_err (l : List (Dimension × UnitRange))
    (h : ∃ p ∈ l, p.2.unboundedEnd = true) :
    shapeOf l = Except.error PyErr.valueError := by
  induction l with
  | nil => simp at h
  | cons p rest ih =>
      by_cases hp : p.2.unboundedEnd = true
      · simp [shapeOf, hp]
      · have : ∃ q ∈ rest, q.2.unboundedEnd = true := by
          rcases h with ⟨q, hq, hqu⟩
          rcases List.mem_cons.mp hq with rfl | hmem
          · exact absurd hqu hp
          · exact ⟨q, hmem, hqu⟩
        simp [shapeOf, hp, ih this]
        rfl

/-- An empty pair list makes `_has_empty_domain` true. -/
theorem hed_of_empty (f : Embedded.FunctionField α) (h : f.domain.pairs = []) :
    Embedded._has_empty_domain f = true := by
  simp [Embedded._has_empty_domain, h]

/-- A non-empty pair list makes `_has_empty_domain` false. -/
theorem hed_of_nonempty (f : Embedded.FunctionField α) (h : f.domain.pairs ≠ []) :
    Embedded._has_empty_domain f = false := by
  cases hl : f.domain.pairs with
  | nil => exact absurd hl h
  | cons a t => simp [Embedded._has_empty_domain, hl]

/-- C6 (amended): materialization of a function field fails exactly when
the domain is empty or some axis range has an infinite endpoint, raising
a plain `ValueError` in both cases (not the dedicated
`InvalidDomainForNdarrayError`/`InfiniteRangeNdarrayError` classes);
otherwise it succeeds with a dense array of the domain's shape. -/
theorem function_field_ndarray_exactness (f : Embedded.FunctionField α) :
    (f.domain.pairs = [] → f.ndarray = Except.error PyErr.valueError) ∧
    (f.domain.pairs ≠ [] → (∃ p ∈ f.domain.pairs, p.2.unboundedEnd = true) →
      f.ndarray = Except.error PyErr.valueError) ∧
    (f.domain.pairs ≠ [] → (∀ p ∈ f.domain.pairs, p.2.unboundedEnd = false) →
      ∃ arr, f.ndarray = Except.ok arr ∧
        arr.shape = f.domain.ranges.map UnitRange.lenNat) := by
  refine ⟨?_, ?_, ?_⟩
  · intro h
    simp [Embedded.FunctionField.ndarray, hed_of_empty f h]
  · intro hne hex
    rw [Embedded.FunctionField.ndarray, hed_of_nonempty f hne]
    rw [shapeOf_err _ hex]
    rfl
  · intro hne hall
    rw [Embedded.FunctionField.ndarray, hed_of_nonempty f hne]
    rw [shapeOf_ok f.domain.pairs hall]
    cases hc : f._constant with
    | true =>
        refine ⟨NdArray.full (f.domain.pairs.map (fun p => p.2.lenNat)) (f.func []), ?_, ?_⟩
        · simp [ebind_ok, hc]
        · simp [NdArray.full, Domain.ranges, List.map_map]
    | false =>
        refine ⟨NdArray.fromfunction (f.domain.pairs.map (fun p => p.2.lenNat)) f.func, ?_, ?_⟩
        · simp [ebind_ok, hc]
        · simp [NdArray.fromfunction, Domain.ranges, List.map_map]

/-- C6 counterexample: materializing a domain-less function field raises
a plain `ValueError`, not `InvalidDomainForNdarrayError` as claimed. -/
theorem function_field_ndarray_error_class_cex :
    (Embedded.constant_field (0 : Int) Domain.empty).ndarray = Except.error PyErr.valueError ∧
    (Embedded.constant_field (0 : Int) Domain.empty).ndarray ≠
      Except.error PyErr.invalidDomainForNdarrayError := by
  constructor
  · rfl
  · intro h
    exact PyErr.noConfusion (Except.error.inj h)

/-- C7: materializing `constant_field(v)` over a non-empty, fully bounded
domain yields a dense array of the domain's shape filled uniformly with
`v`. -/
theorem constant_field_materialization (v : α) (D : Domain)
    (hne : D.pairs ≠ []) (hb : ∀ p ∈ D.pairs, p.2.unboundedEnd = false) :
    ∃ arr, (Embedded.constant_field v D).ndarray = Except.ok arr ∧
      arr.shape = D.ranges.map UnitRange.lenNat ∧ ∀ c, arr.val c = v := by
  have hE : Embedded._has_empty_domain (Embedded.constant_field v D) = false :=
    hed_of_nonempty _ hne
  refine ⟨NdArray.full (D.pairs.map (fun p => p.2.lenNat)) v, ?_, ?_, fun c => rfl⟩
  · rw [Embedded.FunctionField.ndarray, hE]
    rw [show (Embedded.constant_field v D).domain = D from rfl]
    rw [shapeOf_ok D.pairs hb]
    simp [ebind_ok]
    rfl
  · simp [NdArray.full, Domain.ranges, List.map_map]

/-- C7 witness: a constant field over `{(I,[0,4)),(J,[0,3))}`
materializes to a 4x3 array filled with the constant. -/
theorem constant_field_materialization_witness :
    ((⟨[(dimI, ⟨0, 4⟩), (dimJ, ⟨0, 3⟩)]⟩ : Domain).pairs ≠ [] ∧
     (∀ p ∈ (⟨[(dimI, ⟨0, 4⟩), (dimJ, ⟨0, 3⟩)]⟩ : Domain).pairs, p.2.unboundedEnd = false)) ∧
    ∃ arr, (Embedded.constant_field (7 : Int) ⟨[(dimI, ⟨0, 4⟩), (dimJ, ⟨0, 3⟩)]⟩).ndarray
        = Except.ok arr ∧
      arr.shape = (⟨[(dimI, ⟨0, 4⟩), (dimJ, ⟨0, 3⟩)]⟩ : Domain).ranges.map UnitRange.lenNat ∧
      ∀ c, arr.val c = 7 :=
  ⟨⟨by decide, by decide⟩,
   constant_field_materialization 7 ⟨[(dimI, ⟨0, 4⟩), (dimJ, ⟨0, 3⟩)]⟩ (by decide) (by decide)⟩

/-- C9: `restrict` on a `constant_field` result rebuilds the function
field from only the generator and the narrowed domain, so the constant
flag is cleared in the result. -/
theorem restrict_clears_constant_flag (v : α) (D : Domain) (idx : DomainSlice)
    (g : Embedded.FunctionField α)
    (h : (Embedded.constant_field v D).restrict idx = Except.ok g) :
    (Embedded.constant_field v D)._constant = true ∧
    g._constant = false ∧ g.func = fun _ => v := by
  refine ⟨rfl, ?_⟩
  rw [Embedded.FunctionField.restrict] at h
  cases hE : Embedded._has_empty_domain (Embedded.constant_field v D) with
  | true => rw [hE] at h; simp at h
  | false =>
      rw [hE] at h
      simp only [Bool.false_eq_true, if_false] at h
      cases hsd : sub_domain (Embedded.constant_field v D).domain idx with
      | error e => rw [hsd, ebind_err] at h; simp at h
      | ok nd =>
          rw [hsd, ebind_ok] at h
          have : (⟨(Embedded.constant_field v D).func, nd, false⟩ : Embedded.FunctionField α) = g :=
            Except.ok.inj h
          rw [← this]
          exact ⟨rfl, rfl⟩

/-- C9 witness: restricting a concrete constant field yields the
constant-flag-cleared function field over the narrowed domain. -/
theorem restrict_clears_constant_flag_witness :
    ((Embedded.constant_field (7 : Int) ⟨[(dimI, ⟨0, 4⟩)]⟩).restrict [(dimI, EntryVal.rng ⟨1, 3⟩)]
      = Except.ok ⟨fun _ => (7 : Int), ⟨[(dimI, ⟨1, 3⟩)]⟩, false⟩) ∧
    ((Embedded.constant_field (7 : Int) ⟨[(dimI, ⟨0, 4⟩)]⟩)._constant = true ∧
     (⟨fun _ => (7 : Int), ⟨[(dimI, ⟨1, 3⟩)]⟩, false⟩ : Embedded.FunctionField Int)._constant = false ∧
     (⟨fun _ => (7 : Int), ⟨[(dimI, ⟨1, 3⟩)]⟩, false⟩ : Embedded.FunctionField Int).func
        = fun _ => (7 : Int)) :=
  ⟨rfl, restrict_clears_constant_flag 7 ⟨[(dimI, ⟨0, 4⟩)]⟩ [(dimI, EntryVal.rng ⟨1, 3⟩)] _ rfl⟩

/-- C5 (amended): restricting an empty-domain array-backed field with a
non-empty domain-style index raises `EmptyDomainIndexError` (via
`sub_domain`), while restricting an empty-domain function field raises a
plain `IndexError` (for any index). -/
theorem empty_domain_restrict_errors :
    (∀ (f : BaseNdArrayField α) (idx : DomainSlice), f.domain.pairs = [] → idx ≠ [] →
       f.restrict idx = Except.error PyErr.emptyDomainIndexError) ∧
    (∀ (g : Embedded.FunctionField α) (idx : DomainSlice), g.domain.pairs = [] →
       g.restrict idx = Except.error PyErr.indexError) := by
  constructor
  · intro f idx hpairs hidx
    have hsd : sub_domain f.domain idx = Except.error PyErr.emptyDomainIndexError := by
      simp [sub_domain, hpairs, hidx]
    simp [BaseNdArrayField.restrict, BaseNdArrayField._slice, hsd, ebind_err]
  · intro g idx h
    simp [Embedded.FunctionField.restrict, hed_of_empty g h]

/-- C5 counterexample: an empty-domain function field restricted with a
non-empty index raises a plain `IndexError`, not `EmptyDomainIndexError`
as the claim states. -/
theorem empty_domain_restrict_cex :
    (Embedded.constant_field (0 : Int) Domain.empty).restrict [(dimI, EntryVal.idx 0)]
      = Except.error PyErr.indexError ∧
    (Embedded.constant_field (0 : Int) Domain.empty).restrict [(dimI, EntryVal.idx 0)]
      ≠ Except.error PyErr.emptyDomainIndexError := by
  refine ⟨rfl, ?_⟩
  intro h
  rw [show (Embedded.constant_field (0 : Int) Domain.empty).restrict [(dimI, EntryVal.idx 0)]
        = Except.error PyErr.indexError from rfl] at h
  exact PyErr.noConfusion (Except.error.inj h)

/-- C5 witness: the amended statement applied at an empty-domain array
field and an empty-domain function field. -/
theorem empty_domain_restrict_errors_witness :
    ((⟨⟨[]⟩, ⟨[], fun _ => (0 : Int)⟩⟩ : BaseNdArrayField Int).domain.pairs = [] ∧
     ([(dimI, EntryVal.idx 0)] : DomainSlice) ≠ [] ∧
     (⟨⟨[]⟩, ⟨[], fun _ => (0 : Int)⟩⟩ : BaseNdArrayField Int).restrict [(dimI, EntryVal.idx 0)]
       = Except.error PyErr.emptyDomainIndexError) ∧
    ((Embedded.constant_field (0 : Int) Domain.empty).domain.pairs = [] ∧
     (Embedded.constant_field (0 : Int) Domain.empty).restrict [(dimJ, EntryVal.idx 1)]
       = Except.error PyErr.indexError) :=
  ⟨⟨rfl, by decide,
    empty_domain_restrict_errors.1 ⟨⟨[]⟩, ⟨[], fun _ => (0 : Int)⟩⟩ _ rfl (by decide)⟩,
   ⟨rfl, empty_domain_restrict_errors.2 _ [(dimJ, EntryVal.idx 1)] rfl⟩⟩

/-- Example field over `{(I, [0,3))}` (same buffer shape as a `[2,5)`
target region but a different domain). -/
def fieldI03 : BaseNdArrayField Int :=
  ⟨⟨[(dimI, ⟨0, 3⟩)]⟩, ⟨[3], fun c => 50 + (c.headD 0 : Int)⟩⟩

/-- C4: indexed assignment of a field value fails with a `ValueError`
domain-mismatch whenever the value's domain differs from the computed
target sub-domain (shapes are never consulted); when the domains are
equal the owned buffer is mutated in place at the computed selector and
the target field's domain is unchanged. -/
theorem setitem_domain_mismatch (f : BaseNdArrayField α) (idx : DomainSlice)
    (td : Domain) (ts : List Sel) (hs : f._slice idx = Except.ok (td, ts)) :
    (∀ g : BaseNdArrayField α, g.domain ≠ td →
       _np_cp_setitem f idx (AssignValue.field g) = Except.error PyErr.valueError) ∧
    (∀ g : BaseNdArrayField α, g.domain = td →
       ∃ f', _np_cp_setitem f idx (AssignValue.field g) = Except.ok f' ∧
         f'.domain = f.domain ∧
         f'.ndarray = f.ndarray.setItemRegion ts g.ndarray) := by
  constructor
  · intro g hne
    simp [_np_cp_setitem, hs, ebind_ok, ebind_err, hne]
  · intro g heq
    refine ⟨⟨f._domain, f.ndarray.setItemRegion ts g.ndarray⟩, ?_, rfl, rfl⟩
    simp [_np_cp_setitem, hs, ebind_ok, heq]
    rfl

/-- C4 witness: assigning a field with numerically identical shape but a
different domain fails with `ValueError`; assigning the correctly
domained field succeeds in place. -/
theorem setitem_domain_mismatch_witness :
    (fieldI010._slice [(dimI, EntryVal.rng ⟨2, 5⟩)]
       = Except.ok (⟨[(dimI, ⟨2, 5⟩)]⟩, [Sel.sl 2 5]) ∧
     fieldI03.domain ≠ (⟨[(dimI, ⟨2, 5⟩)]⟩ : Domain) ∧
     fieldI03.ndarray.shape = [3]) ∧
    _np_cp_setitem fieldI010 [(dimI, EntryVal.rng ⟨2, 5⟩)] (AssignValue.field fieldI03)
      = Except.error PyErr.valueError :=
  ⟨⟨rfl, by decide, rfl⟩,
   (setitem_domain_mismatch fieldI010 [(dimI, EntryVal.rng ⟨2, 5⟩)]
      ⟨[(dimI, ⟨2, 5⟩)]⟩ [Sel.sl 2 5] rfl).1 fieldI03 (by decide)⟩

/-- C6 witness: the exactness theorem applied at a bounded two-cell
constant field (success branch) and at an unbounded-axis field (failure
branch). -/
theorem function_field_ndarray_exactness_witness :
    ((Embedded.constant_field (5 : Int) ⟨[(dimI, ⟨0, 2⟩)]⟩).domain.pairs ≠ [] ∧
     (∀ p ∈ (Embedded.constant_field (5 : Int) ⟨[(dimI, ⟨0, 2⟩)]⟩).domain.pairs,
        p.2.unboundedEnd = false)) ∧
    (∃ arr, (Embedded.constant_field (5 : Int) ⟨[(dimI, ⟨0, 2⟩)]⟩).ndarray = Except.ok arr ∧
      arr.shape = (Embedded.constant_field (5 : Int) ⟨[(dimI, ⟨0, 2⟩)]⟩).domain.ranges.map
        UnitRange.lenNat) ∧
    (Embedded.FunctionField.mk (fun _ => (0 : Int)) ⟨[(dimI, UnitRange.infinity)]⟩ false).ndarray
      = Except.error PyErr.valueError :=
  ⟨⟨by decide, by decide⟩,
   (function_field_ndarray_exactness (Embedded.constant_field (5 : Int) ⟨[(dimI, ⟨0, 2⟩)]⟩)).2.2
     (by decide) (by decide),
   (function_field_ndarray_exactness
      (Embedded.FunctionField.mk (fun _ => (0 : Int)) ⟨[(dimI, UnitRange.infinity)]⟩ false)).2.1
     (by decide) ⟨(dimI, UnitRange.infinity), by decide, by decide⟩⟩

/-- Looking up in a map extended on the right first consults the original
map. -/
theorem gt_append_single (m : List (BuiltInFunction × β)) (k : BuiltInFunction) (v : β)
    (op : BuiltInFunction) :
    gt_builtin_func (m ++ [(k, v)]) op
      = (gt_builtin_func m op).or (if k == op then some v else none) := by
  unfold gt_builtin_func
  rw [List.find?_append]
  cases hf : m.find? (fun p => p.1 == op) with
  | some x => simp [Option.or]
  | none =>
      by_cases hk : (k == op) = true
      · simp [Option.or, List.find?, hk]
      · simp only [Bool.not_eq_true] at hk
        simp [Option.or, List.find?, hk]

/-- The fold of successful registrations preserves key uniqueness and
first-registration lookup semantics. -/
theorem registerAll_invariant (ops : List (BuiltInFunction × β)) :
    ∀ m m', registerAll ops m = Except.ok m' →
      ((m.map Prod.fst).Nodup → (m'.map Prod.fst).Nodup) ∧
      ∀ op, gt_builtin_func m' op =
        (gt_builtin_func m op).or ((ops.find? (fun p => p.1 == op)).map Prod.snd) := by
  induction ops with
  | nil =>
      intro m m' h
      have hm : m = m' := Except.ok.inj h
      subst hm
      exact ⟨id, fun op => by simp [List.find?, Option.or_none]⟩
  | cons hd tl ih =>
      intro m m' h
      rw [registerAll] at h
      by_cases hany : m.any (fun p => p.1 == hd.1) = true
      · rw [register_builtin_func, if_pos hany, ebind_err] at h
        exact absurd h (by simp)
      · rw [register_builtin_func, if_neg hany, epure_bind] at h
        obtain ⟨hnodup, hlook⟩ := ih (m ++ [(hd.1, hd.2)]) m' h
        have hnotin : ∀ p ∈ m, ¬ (p.1 == hd.1) = true := by
          intro p hp hpt
          exact hany (List.any_eq_true.mpr ⟨p, hp, hpt⟩)
        constructor
        · intro hnd
          apply hnodup
          rw [List.map_append]
          refine List.Nodup.append hnd (by simp) ?_
          intro a ha hb
          simp only [List.map_cons, List.map_nil, List.mem_singleton] at hb
          subst hb
          obtain ⟨p, hp, hpa⟩ := List.mem_map.mp ha
          exact hnotin p hp (by simp [hpa])
        · intro op
          rw [hlook op, gt_append_single, Option.or_assoc]
          congr 1
          rw [List.find?_cons]
          by_cases hop : (hd.1 == op) = true
          · simp [hop]
          · simp only [Bool.not_eq_true] at hop
            simp [hop]

/-- C10: registering a built-in already present in the class map fails
with an assertion; a successful registration sequence starting from the
empty map binds each built-in to at most one implementation (the first
registered), and `__gt_builtin_func__` lookup returns exactly that
implementation (or nothing, standing for `NotImplemented`). -/
theorem register_builtin_first_binding :
    (∀ (m : List (BuiltInFunction × β)) (op : BuiltInFunction) (fn : β),
       (∃ g, gt_builtin_func m op = some g) →
       register_builtin_func m op fn = Except.error PyErr.assertionError) ∧
    (∀ (ops m' : List (BuiltInFunction × β)),
       registerAll ops [] = Except.ok m' →
       (m'.map Prod.fst).Nodup ∧
       ∀ op, gt_builtin_func m' op = (ops.find? (fun p => p.1 == op)).map Prod.snd) := by
  constructor
  · intro m op fn hg
    obtain ⟨g, hg⟩ := hg
    have hf : (m.find? (fun p => p.1 == op)).isSome := by
      cases hx : m.find? (fun p => p.1 == op) with
      | some x => simp
      | none => rw [gt_builtin_func, hx] at hg; simp at hg
    obtain ⟨x, hx, hpx⟩ := List.find?_isSome.mp hf
    have hany : m.any (fun p => p.1 == op) = true := List.any_eq_true.mpr ⟨x, hx, hpx⟩
    rw [register_builtin_func, if_pos hany]
  · intro ops m' h
    obtain ⟨hnd, hl⟩ := registerAll_invariant ops [] m' h
    refine ⟨hnd (by simp), fun op => ?_⟩
    rw [hl op]
    simp [gt_builtin_func, List.find?]

/-- C10 witness: a duplicate registration asserts; a concrete two-entry
registration sequence yields a nodup, first-binding map. -/
theorem register_builtin_first_binding_witness :
    ((∃ g, gt_builtin_func [((1 : Nat), (10 : Nat))] 1 = some g) ∧
     register_builtin_func [((1 : Nat), (10 : Nat))] 1 20
       = Except.error PyErr.assertionError) ∧
    (registerAll [((1 : Nat), (10 : Nat)), (2, 20)] []
       = Except.ok [(1, 10), (2, 20)] ∧
     ([((1 : Nat), (10 : Nat)), (2, 20)].map Prod.fst).Nodup ∧
     ∀ op, gt_builtin_func [((1 : Nat), (10 : Nat)), (2, 20)] op
       = ([((1 : Nat), (10 : Nat)), (2, 20)].find? (fun p => p.1 == op)).map Prod.snd) :=
  ⟨⟨⟨10, rfl⟩,
    register_builtin_first_binding.1 [((1 : Nat), (10 : Nat))] 1 20 ⟨10, rfl⟩⟩,
   ⟨rfl, register_builtin_first_binding.2 [((1 : Nat), (10 : Nat)), (2, 20)] [(1, 10), (2, 20)] rfl⟩⟩

/-- The per-axis selector rule exactly as the specification words it (for
comparison with the implementation): a named bounded sub-range on an axis
starting at `s` gives `slice(a-s, b-s)`; a named integer gives the
relative offset; a named range on an unbounded axis, or an unnamed axis,
selects everything; any other named entry fails the translation. -/
def selectorSpec (entry : Option EntryVal) (axisRange : UnitRange) : Except PyErr Sel :=
  match entry with
  | none => pure Sel.all
  | some (EntryVal.rng q) =>
      if axisRange = UnitRange.infinity then pure Sel.all
      else pure (Sel.sl (q.start - axisRange.start) (q.stop - axisRange.start))
  | some (EntryVal.idx i) => pure (Sel.idx (i - axisRange.start))
  | some EntryVal.other => Except.error PyErr.valueError

/-- The specification-side translator: one selector per axis, produced
independently per (dimension, range) pair, in domain order. -/
def slicesSpecGo (s : DomainSlice) : List (Dimension × UnitRange) → Except PyErr (List Sel)
  | [] => pure []
  | p :: rest => do
      let sel ← selectorSpec (lookupEntry s p.1) p.2
      let t ← slicesSpecGo s rest
      pure (sel :: t)

/-- `_compute_slice` at position `k` only consults the `k`-th axis
range. -/
theorem compute_slice_eq_spec (ir : EntryVal) (domain : Domain) (k : Nat) (p : Dimension × UnitRange)
    (hget : domain.pairs[k]? = some p) :
    _compute_slice ir domain k = selectorSpec (some ir) p.2 := by
  have hrange : domain.ranges[k]? = some p.2 := by
    rw [show domain.ranges = domain.pairs.map Prod.snd from rfl]
    simp [List.getElem?_map, hget]
  cases ir with
  | rng q => simp [_compute_slice, selectorSpec, List.getD_eq_getElem?_getD, hrange]
  | idx i => simp [_compute_slice, selectorSpec, List.getD_eq_getElem?_getD, hrange]
  | other => rfl

/-- The translator loop processes the remaining axes independently of
their position. -/
theorem slicesGo_eq_spec (domain : Domain) (s : DomainSlice) :
    ∀ l k, domain.pairs.drop k = l → slicesGo domain s l k = slicesSpecGo s l := by
  intro l
  induction l with
  | nil => intro k _; rfl
  | cons p rest ih =>
      intro k hdrop
      have hget : domain.pairs[k]? = some p := by
        have := List.getElem?_drop domain.pairs k 0
        rw [hdrop] at this
        simpa using this.symm
      have hrest : domain.pairs.drop (k + 1) = rest := by
        rw [← List.tail_drop, hdrop]
        rfl
      rw [slicesGo, slicesSpecGo]
      cases hl : lookupEntry s p.1 with
      | some ir =>
          dsimp only
          rw [compute_slice_eq_spec ir domain k p hget]
          rw [ih (k + 1) hrest]
      | none =>
          dsimp only
          rw [ih (k + 1) hrest]
          cases hrec : slicesSpecGo s rest with
          | ok t => rfl
          | error e => rfl

/-- Successful spec-side translation yields one selector per axis. -/
theorem slicesSpecGo_length (s : DomainSlice) :
    ∀ (l : List (Dimension × UnitRange)) out, slicesSpecGo s l = Except.ok out →
      out.length = l.length := by
  intro l
  induction l with
  | nil =>
      intro out h
      have : ([] : List Sel) = out := Except.ok.inj h
      simp [← this]
  | cons p rest ih =>
      intro out h
      rw [slicesSpecGo] at h
      cases hsel : selectorSpec (lookupEntry s p.1) p.2 with
      | error e => rw [hsel, ebind_err] at h; exact absurd h (by simp)
      | ok sel =>
          rw [hsel, ebind_ok] at h
          cases hrec : slicesSpecGo s rest with
          | error e => rw [hrec, ebind_err] at h; exact absurd h (by simp)
          | ok t =>
              rw [hrec, ebind_ok] at h
              have : sel :: t = out := Except.ok.inj h
              rw [← this]
              simp [ih t hrec]

/-- C2: the buffer-slice translator produces exactly one selector per
axis of the domain, in domain order, each computed by the
specification's per-axis rule (bounded named range offset by the axis
start; unbounded axis collapses to select-everything; named integer
becomes a relative offset; unnamed axis selects everything; any other
named entry fails with `ValueError`). -/
theorem slice_translator_per_axis (domain : Domain) (s : DomainSlice) :
    _get_slices_from_domain_slice domain s = slicesSpecGo s domain.pairs ∧
    ∀ out, _get_slices_from_domain_slice domain s = Except.ok out →
      out.length = domain.pairs.length := by
  have heq : _get_slices_from_domain_slice domain s = slicesSpecGo s domain.pairs :=
    slicesGo_eq_spec domain s domain.pairs 0 rfl
  refine ⟨heq, fun out h => ?_⟩
  rw [heq] at h
  exact slicesSpecGo_length s domain.pairs out h

/-- C2 witness: translating a concrete two-axis domain (one bounded axis
named with an integer, one unbounded axis named with a range). -/
theorem slice_translator_per_axis_witness :
    _get_slices_from_domain_slice ⟨[(dimI, ⟨2, 5⟩), (dimJ, UnitRange.infinity)]⟩
        [(dimJ, EntryVal.rng ⟨0, 3⟩), (dimI, EntryVal.idx 4)]
      = slicesSpecGo [(dimJ, EntryVal.rng ⟨0, 3⟩), (dimI, EntryVal.idx 4)]
          [(dimI, ⟨2, 5⟩), (dimJ, UnitRange.infinity)] ∧
    _get_slices_from_domain_slice ⟨[(dimI, ⟨2, 5⟩), (dimJ, UnitRange.infinity)]⟩
        [(dimJ, EntryVal.rng ⟨0, 3⟩), (dimI, EntryVal.idx 4)]
      = Except.ok [Sel.idx 2, Sel.all] ∧
    ([Sel.idx 2, Sel.all] : List Sel).length
      = (⟨[(dimI, ⟨2, 5⟩), (dimJ, UnitRange.infinity)]⟩ : Domain).pairs.length :=
  ⟨(slice_translator_per_axis ⟨[(dimI, ⟨2, 5⟩), (dimJ, UnitRange.infinity)]⟩
      [(dimJ, EntryVal.rng ⟨0, 3⟩), (dimI, EntryVal.idx 4)]).1,
   rfl,
   (slice_translator_per_axis ⟨[(dimI, ⟨2, 5⟩), (dimJ, UnitRange.infinity)]⟩
      [(dimJ, EntryVal.rng ⟨0, 3⟩), (dimI, EntryVal.idx 4)]).2 [Sel.idx 2, Sel.all] rfl⟩

/-- Per-axis in-bounds condition for a domain-style index specification:
a named range must be contained in the axis range (allowing empty), a
named integer must lie in the axis range, and no axis may be named with
a foreign value. -/
def entryOkB (idx : DomainSlice) (p : Dimension × UnitRange) : Bool :=
  match lookupEntry idx p.1 with
  | none => true
  | some (EntryVal.rng q) =>
      decide (p.2.start ≤ q.start) && decide (q.start ≤ q.stop) && decide (q.stop ≤ p.2.stop)
  | some (EntryVal.idx i) => p.2.containsIdx i
  | some EntryVal.other => false

/-- The pairs of the sub-domain computed by `sub_domain`: integer-named
axes are dropped, range-named axes are intersected, unnamed axes kept. -/
def newPairs (idx : DomainSlice) (pairs : List (Dimension × UnitRange)) :
    List (Dimension × UnitRange) :=
  pairs.filterMap (fun p =>
    match lookupEntry idx p.1 with
    | some (EntryVal.idx _) => none
    | some (EntryVal.rng q) => some (p.1, p.2.inter q)
    | _ => some p)

/-- The selector tuple produced by the translator in the in-bounds,
bounded-axes case. -/
def selsOf (idx : DomainSlice) (pairs : List (Dimension × UnitRange)) : List Sel :=
  pairs.map (fun p =>
    match lookupEntry idx p.1 with
    | none => Sel.all
    | some (EntryVal.rng q) => Sel.sl (q.start - p.2.start) (q.stop - p.2.start)
    | some (EntryVal.idx i) => Sel.idx (i - p.2.start)
    | some EntryVal.other => Sel.all)

/-- Coordinate assignment overridden at integer-named dimensions by the
named index value. -/
def overrideSlice (idx : DomainSlice) (σ : Dimension → Int) : Dimension → Int :=
  fun d => match lookupEntry idx d with
  | some (EntryVal.idx i) => i
  | _ => σ d

/-- A bounded range is not the unbounded placeholder. -/
theorem bounded_ne_infinity (r : UnitRange) (h : r.bounded = true) :
    r ≠ UnitRange.infinity := by
  intro he
  rw [he] at h
  simp [UnitRange.bounded, UnitRange.infinity] at h

/-- Length of a normalized range construction. -/
theorem lenNat_unitRange (a b : Int) : (unitRange a b).lenNat = (b - a).toNat := by
  unfold unitRange UnitRange.lenNat
  split
  · rfl
  · simp only
    omega

/-- The broadcast-placeholder branch of the relative coordinate is taken
only for unbounded axes. -/
theorem relc_of_ne_inf (r : UnitRange) (s : Nat) (x : Int) (h : r ≠ UnitRange.infinity) :
    fieldRelCoord r s x = (x - r.start).toNat := by
  unfold fieldRelCoord
  rw [if_neg]
  exact fun hc => h hc.2

/-- Python slice normalization is exact for in-range nonnegative
offsets. -/
theorem normStart_of_bounds (a : Int) (n : Nat) (h0 : 0 ≤ a) (hn : a ≤ (n : Int)) :
    normStart a n = a.toNat := by
  unfold normStart
  rw [if_neg (by omega)]
  omega

/-- Cons unfolding of `newPairs` at an unnamed axis. -/
theorem newPairs_cons_none (idx : DomainSlice) (p : Dimension × UnitRange)
    (rest : List (Dimension × UnitRange)) (hl : lookupEntry idx p.1 = none) :
    newPairs idx (p :: rest) = p :: newPairs idx rest := by
  unfold newPairs
  rw [List.filterMap_cons]
  simp only [hl]

/-- Cons unfolding of `newPairs` at a range-named axis. -/
theorem newPairs_cons_rng (idx : DomainSlice) (p : Dimension × UnitRange)
    (rest : List (Dimension × UnitRange)) (q : UnitRange)
    (hl : lookupEntry idx p.1 = some (EntryVal.rng q)) :
    newPairs idx (p :: rest) = (p.1, p.2.inter q) :: newPairs idx rest := by
  unfold newPairs
  rw [List.filterMap_cons]
  simp only [hl]

/-- Cons unfolding of `newPairs` at an integer-named axis. -/
theorem newPairs_cons_idx (idx : DomainSlice) (p : Dimension × UnitRange)
    (rest : List (Dimension × UnitRange)) (i : Int)
    (hl : lookupEntry idx p.1 = some (EntryVal.idx i)) :
    newPairs idx (p :: rest) = newPairs idx rest := by
  unfold newPairs
  rw [List.filterMap_cons]
  simp only [hl]

/-- Cons unfolding of `selsOf` at an unnamed axis. -/
theorem selsOf_cons_none (idx : DomainSlice) (p : Dimension × UnitRange)
    (rest : List (Dimension × UnitRange)) (hl : lookupEntry idx p.1 = none) :
    selsOf idx (p :: rest) = Sel.all :: selsOf idx rest := by
  unfold selsOf
  rw [List.map_cons]
  simp only [hl]

/-- Cons unfolding of `selsOf` at a range-named axis. -/
theorem selsOf_cons_rng (idx : DomainSlice) (p : Dimension × UnitRange)
    (rest : List (Dimension × UnitRange)) (q : UnitRange)
    (hl : lookupEntry idx p.1 = some (EntryVal.rng q)) :
    selsOf idx (p :: rest)
      = Sel.sl (q.start - p.2.start) (q.stop - p.2.start) :: selsOf idx rest := by
  unfold selsOf
  rw [List.map_cons]
  simp only [hl]

/-- Cons unfolding of `selsOf` at an integer-named axis. -/
theorem selsOf_cons_idx (idx : DomainSlice) (p : Dimension × UnitRange)
    (rest : List (Dimension × UnitRange)) (i : Int)
    (hl : lookupEntry idx p.1 = some (EntryVal.idx i)) :
    selsOf idx (p :: rest) = Sel.idx (i - p.2.start) :: selsOf idx rest := by
  unfold selsOf
  rw [List.map_cons]
  simp only [hl]

/-- The Python slice derived from an in-bounds named range selects
exactly the intersection length. -/
theorem sliceLenPy_inter (r q : UnitRange) (s : Nat)
    (h1 : r.start ≤ q.start) (h2 : q.start ≤ q.stop) (h3 : q.stop ≤ r.stop)
    (hlen : r.stop - r.start = (s : Int)) :
    sliceLenPy (q.start - r.start) (q.stop - r.start) s = (r.inter q).lenNat := by
  have hinter : r.inter q = unitRange q.start q.stop := by
    unfold UnitRange.inter
    rw [max_eq_right h1, min_eq_right h3]
  rw [hinter, lenNat_unitRange]
  unfold sliceLenPy normStop
  rw [normStart_of_bounds _ _ (by omega) (by omega),
      normStart_of_bounds _ _ (by omega) (by omega)]
  omega

/-- Core characterization of the in-bounds restriction pipeline: over
bounded, size-matching axes with in-bounds named entries, `sub_domain`
yields exactly the intersected/dropped pairs, the translator yields the
per-axis selectors, slicing the buffer yields one axis of the
intersection length per surviving axis (all bounded), and the sliced
buffer's relative coordinates map back to the original field's relative
coordinates of the same absolute coordinate assignment (overridden at
integer-named axes). -/
theorem restrict_core (idx : DomainSlice) :
    ∀ (pairs : List (Dimension × UnitRange)) (sh : List Nat),
      pairs.length = sh.length →
      (∀ pr ∈ List.zip pairs sh, pr.1.2.bounded = true ∧ pr.1.2.len = (pr.2 : Int)) →
      (∀ p ∈ pairs, entryOkB idx p = true) →
      subDomainPairs idx pairs = Except.ok (newPairs idx pairs) ∧
      slicesSpecGo idx pairs = Except.ok (selsOf idx pairs) ∧
      sliceShape (selsOf idx pairs) sh = (newPairs idx pairs).map (fun p => p.2.lenNat) ∧
      (∀ p ∈ newPairs idx pairs, p.2.bounded = true) ∧
      (∀ σ : Dimension → Int,
        (∀ p ∈ newPairs idx pairs, p.2.containsIdx (σ p.1) = true) →
        sliceCoord (selsOf idx pairs) sh
            ((newPairs idx pairs).map (fun p => fieldRelCoord p.2 p.2.lenNat (σ p.1)))
          = List.zipWith (fun (p : Dimension × UnitRange) s =>
              fieldRelCoord p.2 s (overrideSlice idx σ p.1)) pairs sh) := by
  intro pairs
  induction pairs with
  | nil =>
      intro sh hlen _ _
      have hsh : sh = [] := by
        cases sh with
        | nil => rfl
        | cons a t => simp at hlen
      subst hsh
      exact ⟨rfl, rfl, rfl, by simp [newPairs], fun σ _ => rfl⟩
  | cons p rest ih =>
      intro sh hlen hwf hok
      cases sh with
      | nil => simp at hlen
      | cons s sh' =>
          have hlen' : rest.length = sh'.length := by simpa using hlen
          have hwf' : ∀ pr ∈ List.zip rest sh', pr.1.2.bounded = true ∧ pr.1.2.len = (pr.2 : Int) :=
            fun pr hpr => hwf pr (by simp [List.zip_cons_cons, hpr])
          have hok' : ∀ q ∈ rest, entryOkB idx q = true :=
            fun q hq => hok q (List.mem_cons_of_mem _ hq)
          have hhead := hwf (p, s) (by simp [List.zip_cons_cons])
          have hb : p.2.bounded = true := hhead.1
          have hlenp : p.2.stop - p.2.start = (s : Int) := hhead.2
          have hninf : p.2 ≠ UnitRange.infinity := bounded_ne_infinity p.2 hb
          have hbp : -INF < p.2.start ∧ p.2.start ≤ p.2.stop ∧ p.2.stop < INF := by
            have hb' := hb
            simp [UnitRange.bounded] at hb'
            exact ⟨hb'.1.1, hb'.1.2, hb'.2⟩
          obtain ⟨ih1, ih2, ih3, ih4, ih5⟩ := ih sh' hlen' hwf' hok'
          have hokp := hok p (by simp)
          cases hl : lookupEntry idx p.1 with
          | none =>
              refine ⟨?_, ?_, ?_, ?_, ?_⟩
              · rw [subDomainPairs, hl, ih1, emap_ok, newPairs_cons_none idx p rest hl]
              · rw [slicesSpecGo, hl]
                rw [show selectorSpec none p.2 = pure Sel.all from rfl]
                rw [epure_bind, ih2, ebind_ok, selsOf_cons_none idx p rest hl]
                rfl
              · rw [selsOf_cons_none idx p rest hl, newPairs_cons_none idx p rest hl,
                    List.map_cons]
                rw [show sliceShape (Sel.all :: selsOf idx rest) (s :: sh')
                      = s :: sliceShape (selsOf idx rest) sh' from rfl]
                rw [ih3]
                congr 1
                show s = p.2.lenNat
                unfold UnitRange.lenNat
                omega
              · intro w hw
                rw [newPairs_cons_none idx p rest hl] at hw
                rcases List.mem_cons.mp hw with rfl | hmem
                · exact hb
                · exact ih4 w hmem
              · intro σ hσ
                rw [newPairs_cons_none idx p rest hl] at hσ ⊢
                rw [selsOf_cons_none idx p rest hl, List.map_cons]
                rw [show sliceCoord (Sel.all :: selsOf idx rest) (s :: sh')
                      (fieldRelCoord p.2 p.2.lenNat (σ p.1)
                        :: (newPairs idx rest).map (fun w => fieldRelCoord w.2 w.2.lenNat (σ w.1)))
                      = fieldRelCoord p.2 p.2.lenNat (σ p.1)
                          :: sliceCoord (selsOf idx rest) sh'
                              ((newPairs idx rest).map
                                (fun w => fieldRelCoord w.2 w.2.lenNat (σ w.1))) from rfl]
                rw [List.zipWith_cons_cons]
                congr 1
                · rw [relc_of_ne_inf _ _ _ hninf, relc_of_ne_inf _ _ _ hninf]
                  have hov : overrideSlice idx σ p.1 = σ p.1 := by
                    unfold overrideSlice
                    rw [hl]
                  rw [hov]
                · exact ih5 σ (fun w hw => hσ w (List.mem_cons_of_mem _ hw))
          | some ev =>
              cases ev with
              | other =>
                  rw [entryOkB, hl] at hokp
                  exact absurd hokp (by simp)
              | idx i =>
                  have hci : p.2.containsIdx i = true := by
                    rw [entryOkB, hl] at hokp
                    exact hokp
                  have hci' : p.2.start ≤ i ∧ i < p.2.stop := by
                    simp [UnitRange.containsIdx] at hci
                    exact hci
                  refine ⟨?_, ?_, ?_, ?_, ?_⟩
                  · rw [subDomainPairs, hl]
                    dsimp only
                    rw [if_pos hci, ih1, newPairs_cons_idx idx p rest i hl]
                  · rw [slicesSpecGo, hl]
                    rw [show selectorSpec (some (EntryVal.idx i)) p.2
                          = pure (Sel.idx (i - p.2.start)) from rfl]
                    rw [epure_bind, ih2, ebind_ok, selsOf_cons_idx idx p rest i hl]
                    rfl
                  · rw [selsOf_cons_idx idx p rest i hl, newPairs_cons_idx idx p rest i hl]
                    rw [show sliceShape (Sel.idx (i - p.2.start) :: selsOf idx rest) (s :: sh')
                          = sliceShape (selsOf idx rest) sh' from rfl]
                    exact ih3
                  · intro w hw
                    rw [newPairs_cons_idx idx p rest i hl] at hw
                    exact ih4 w hw
                  · intro σ hσ
                    rw [newPairs_cons_idx idx p rest i hl] at hσ ⊢
                    rw [selsOf_cons_idx idx p rest i hl]
                    rw [show sliceCoord (Sel.idx (i - p.2.start) :: selsOf idx rest) (s :: sh')
                          ((newPairs idx rest).map (fun w => fieldRelCoord w.2 w.2.lenNat (σ w.1)))
                          = pyIdx (i - p.2.start) s
                              :: sliceCoord (selsOf idx rest) sh'
                                  ((newPairs idx rest).map
                                    (fun w => fieldRelCoord w.2 w.2.lenNat (σ w.1))) from rfl]
                    rw [List.zipWith_cons_cons]
                    congr 1
                    · rw [relc_of_ne_inf _ _ _ hninf]
                      have hov : overrideSlice idx σ p.1 = i := by
                        unfold overrideSlice
                        rw [hl]
                      rw [hov]
                      unfold pyIdx
                      rw [if_neg (by omega)]
                    · exact ih5 σ hσ
              | rng q =>
                  have hqb : p.2.start ≤ q.start ∧ q.start ≤ q.stop ∧ q.stop ≤ p.2.stop := by
                    rw [entryOkB, hl] at hokp
                    simp at hokp
                    exact ⟨hokp.1.1, hokp.1.2, hokp.2⟩
                  refine ⟨?_, ?_, ?_, ?_, ?_⟩
                  · rw [subDomainPairs, hl, ih1]
                    dsimp only
                    rw [emap_ok, newPairs_cons_rng idx p rest q hl]
                  · rw [slicesSpecGo, hl]
                    rw [show selectorSpec (some (EntryVal.rng q)) p.2
                          = if p.2 = UnitRange.infinity then pure Sel.all
                            else pure (Sel.sl (q.start - p.2.start) (q.stop - p.2.start)) from rfl]
                    rw [if_neg hninf, epure_bind, ih2, ebind_ok, selsOf_cons_rng idx p rest q hl]
                    rfl
                  · rw [selsOf_cons_rng idx p rest q hl, newPairs_cons_rng idx p rest q hl,
                        List.map_cons]
                    rw [show sliceShape (Sel.sl (q.start - p.2.start) (q.stop - p.2.start)
                            :: selsOf idx rest) (s :: sh')
                          = sliceLenPy (q.start - p.2.start) (q.stop - p.2.start) s
                              :: sliceShape (selsOf idx rest) sh' from rfl]
                    rw [ih3]
                    congr 1
                    exact sliceLenPy_inter p.2 q s hqb.1 hqb.2.1 hqb.2.2 hlenp
                  · intro w hw
                    rw [newPairs_cons_rng idx p rest q hl] at hw
                    rcases List.mem_cons.mp hw with rfl | hmem
                    · show (p.2.inter q).bounded = true
                      unfold UnitRange.inter unitRange UnitRange.bounded
                      have hINF : (0 : Int) < INF := by norm_num [INF]
                      split
                      · simp only [Bool.and_eq_true, decide_eq_true_eq]
                        refine ⟨⟨by omega, by omega⟩, by omega⟩
                      · simp only [Bool.and_eq_true, decide_eq_true_eq]
                        exact ⟨⟨by omega, by omega⟩, by omega⟩
                    · exact ih4 w hmem
                  · intro σ hσ
                    rw [newPairs_cons_rng idx p rest q hl] at hσ ⊢
                    have hσhead : (p.2.inter q).containsIdx (σ p.1) = true :=
                      hσ (p.1, p.2.inter q) (List.mem_cons_self _ _)
                    have hσ' : ∀ w ∈ newPairs idx rest, w.2.containsIdx (σ w.1) = true :=
                      fun w hw => hσ w (List.mem_cons_of_mem _ hw)
                    have hnonempty : q.start < q.stop := by
                      by_contra hc
                      unfold UnitRange.inter unitRange at hσhead
                      rw [max_eq_right hqb.1, min_eq_right hqb.2.2, if_neg (by omega)] at hσhead
                      simp [UnitRange.containsIdx] at hσhead
                      omega
                    have hintq : p.2.inter q = q := by
                      unfold UnitRange.inter unitRange
                      rw [max_eq_right hqb.1, min_eq_right hqb.2.2, if_pos hnonempty]
                    have hσq : q.start ≤ σ p.1 ∧ σ p.1 < q.stop := by
                      rw [hintq] at hσhead
                      simp [UnitRange.containsIdx] at hσhead
                      exact hσhead
                    rw [selsOf_cons_rng idx p rest q hl, List.map_cons, hintq]
                    rw [show ((p.1, q) : Dimension × UnitRange).2 = q from rfl,
                        show ((p.1, q) : Dimension × UnitRange).1 = p.1 from rfl]
                    rw [show sliceCoord (Sel.sl (q.start - p.2.start) (q.stop - p.2.start)
                            :: selsOf idx rest) (s :: sh')
                          (fieldRelCoord q q.lenNat (σ p.1)
                            :: (newPairs idx rest).map
                                (fun w => fieldRelCoord w.2 w.2.lenNat (σ w.1)))
                          = (normStart (q.start - p.2.start) s
                              + fieldRelCoord q q.lenNat (σ p.1))
                              :: sliceCoord (selsOf idx rest) sh'
                                  ((newPairs idx rest).map
                                    (fun w => fieldRelCoord w.2 w.2.lenNat (σ w.1))) from rfl]
                    rw [List.zipWith_cons_cons]
                    congr 1
                    · have hqninf : q ≠ UnitRange.infinity := by
                        intro he
                        rw [he] at hqb
                        unfold UnitRange.infinity at hqb
                        simp only at hqb
                        omega
                      rw [relc_of_ne_inf _ _ _ hqninf, relc_of_ne_inf _ _ _ hninf]
                      have hov : overrideSlice idx σ p.1 = σ p.1 := by
                        unfold overrideSlice
                        rw [hl]
                      rw [hov]
                      rw [normStart_of_bounds _ _ (by omega) (by omega)]
                      omega
                    · exact ih5 σ hσ'

/-- `sub_domain` under in-bounds entries returns exactly the
intersected/dropped domain. -/
theorem sub_domain_in_bounds (D : Domain) (idx : DomainSlice)
    (hcore : subDomainPairs idx D.pairs = Except.ok (newPairs idx D.pairs))
    (hne : D.pairs = [] → idx = []) :
    sub_domain D idx = Except.ok ⟨newPairs idx D.pairs⟩ := by
  unfold sub_domain
  rw [if_neg, hcore, emap_ok]
  rintro ⟨h0, hni⟩
  exact hni (hne (List.length_eq_zero.mp h0))

/-- The translator under in-bounds entries over bounded axes returns the
per-axis selectors. -/
theorem get_slices_in_bounds (D : Domain) (idx : DomainSlice)
    (hcore : slicesSpecGo idx D.pairs = Except.ok (selsOf idx D.pairs)) :
    _get_slices_from_domain_slice D idx = Except.ok (selsOf idx D.pairs) := by
  rw [_get_slices_from_domain_slice, slicesGo_eq_spec D idx D.pairs 0 rfl, hcore]

/-- `_slice` under in-bounds entries over bounded axes. -/
theorem slice_in_bounds (f : BaseNdArrayField α) (idx : DomainSlice)
    (hlen : f.domain.pairs.length = f.ndarray.shape.length)
    (hwf : ∀ pr ∈ List.zip f.domain.pairs f.ndarray.shape,
      pr.1.2.bounded = true ∧ pr.1.2.len = (pr.2 : Int))
    (hok : ∀ p ∈ f.domain.pairs, entryOkB idx p = true)
    (hne : f.domain.pairs = [] → idx = []) :
    f._slice idx = Except.ok (⟨newPairs idx f.domain.pairs⟩, selsOf idx f.domain.pairs) := by
  obtain ⟨h1, h2, _, _, _⟩ := restrict_core idx f.domain.pairs f.ndarray.shape hlen hwf hok
  rw [BaseNdArrayField._slice, sub_domain_in_bounds f.domain idx h1 hne, ebind_ok,
      get_slices_in_bounds f.domain idx h2, ebind_ok]
  rfl

/-- In-bounds restriction to a non-empty sub-domain returns the new
array-backed field wrapping the sliced buffer. -/
theorem restrict_ok_field (f : BaseNdArrayField α) (idx : DomainSlice)
    (hlen : f.domain.pairs.length = f.ndarray.shape.length)
    (hwf : ∀ pr ∈ List.zip f.domain.pairs f.ndarray.shape,
      pr.1.2.bounded = true ∧ pr.1.2.len = (pr.2 : Int))
    (hok : ∀ p ∈ f.domain.pairs, entryOkB idx p = true)
    (hnem : newPairs idx f.domain.pairs ≠ []) :
    f.restrict idx = Except.ok (FieldOrScalar.field
      ⟨⟨newPairs idx f.domain.pairs⟩, f.ndarray.getItem (selsOf idx f.domain.pairs)⟩) := by
  obtain ⟨h1, h2, h3, h4, _⟩ := restrict_core idx f.domain.pairs f.ndarray.shape hlen hwf hok
  have hpne : f.domain.pairs ≠ [] := by
    intro h0
    apply hnem
    rw [h0]
    rfl
  have hslice := slice_in_bounds f idx hlen hwf hok (fun h0 => absurd h0 hpne)
  rw [BaseNdArrayField.restrict, hslice, ebind_ok]
  have hlennem : ¬ ((⟨newPairs idx f.domain.pairs⟩ : Domain), selsOf idx f.domain.pairs).1.pairs.length = 0 := by
    intro h0
    exact hnem (List.length_eq_zero.mp h0)
  rw [if_neg hlennem]
  have hshape : (f.ndarray.getItem (selsOf idx f.domain.pairs)).shape
      = (newPairs idx f.domain.pairs).map (fun p => p.2.lenNat) := h3
  have hcond : ((⟨newPairs idx f.domain.pairs⟩ : Domain).pairs.length
        = (f.ndarray.getItem (selsOf idx f.domain.pairs)).shape.length)
      ∧ (List.zip (⟨newPairs idx f.domain.pairs⟩ : Domain).ranges
          (f.ndarray.getItem (selsOf idx f.domain.pairs)).shape).all
          (fun p => (p.1.len == (p.2 : Int)) || (p.2 == 1 && p.1 == UnitRange.infinity))
          = true := by
    constructor
    · rw [hshape]
      simp
    · rw [hshape]
      rw [show (⟨newPairs idx f.domain.pairs⟩ : Domain).ranges
            = (newPairs idx f.domain.pairs).map Prod.snd from rfl]
      rw [List.zip_map']
      apply List.all_eq_true.mpr
      intro x hx
      obtain ⟨w, hw, rfl⟩ := List.mem_map.mp hx
      have hbw := h4 w hw
      have hge : (0 : Int) ≤ w.2.len := by
        simp [UnitRange.bounded] at hbw
        unfold UnitRange.len
        omega
      dsimp only
      have hlen2 : (w.2.len == ((w.2.lenNat : Nat) : Int)) = true := by
        simp only [beq_iff_eq]
        unfold UnitRange.lenNat UnitRange.len at hge ⊢
        omega
      rw [hlen2, Bool.true_or]
  rw [from_array, if_pos hcond]
  rfl

/-- In-bounds restriction to a zero-dimension sub-domain returns the
scalar buffer element. -/
theorem restrict_ok_scalar (f : BaseNdArrayField α) (idx : DomainSlice)
    (hlen : f.domain.pairs.length = f.ndarray.shape.length)
    (hwf : ∀ pr ∈ List.zip f.domain.pairs f.ndarray.shape,
      pr.1.2.bounded = true ∧ pr.1.2.len = (pr.2 : Int))
    (hok : ∀ p ∈ f.domain.pairs, entryOkB idx p = true)
    (hemp : newPairs idx f.domain.pairs = [])
    (hne : f.domain.pairs = [] → idx = []) :
    f.restrict idx = Except.ok (FieldOrScalar.scalar
      (f.ndarray.val (sliceCoord (selsOf idx f.domain.pairs) f.ndarray.shape []))) := by
  obtain ⟨h1, h2, h3, _, _⟩ := restrict_core idx f.domain.pairs f.ndarray.shape hlen hwf hok
  have hslice := slice_in_bounds f idx hlen hwf hok hne
  rw [BaseNdArrayField.restrict, hslice, ebind_ok]
  have hzero : ((⟨newPairs idx f.domain.pairs⟩ : Domain), selsOf idx f.domain.pairs).1.pairs.length = 0 := by
    simp [hemp]
  rw [if_pos hzero]
  have hshape : (f.ndarray.getItem (selsOf idx f.domain.pairs)).shape = [] := by
    rw [show (f.ndarray.getItem (selsOf idx f.domain.pairs)).shape
          = sliceShape (selsOf idx f.domain.pairs) f.ndarray.shape from rfl, h3, hemp]
    rfl
  rw [if_pos hshape]
  rfl

/-- C3 (amended): for array-backed fields with bounded axes and
in-bounds domain-style index specifications, `restrict` computes the
sub-domain; a zero-dimension sub-domain yields the single scalar buffer
element at the selected coordinate, otherwise a new array-backed field
over the sub-domain wrapping the selected sub-buffer (equal to the
original field at every coordinate of the sub-domain). -/
theorem restrict_dichotomy (f : BaseNdArrayField α) (idx : DomainSlice)
    (hlen : f.domain.pairs.length = f.ndarray.shape.length)
    (hwf : ∀ pr ∈ List.zip f.domain.pairs f.ndarray.shape,
      pr.1.2.bounded = true ∧ pr.1.2.len = (pr.2 : Int))
    (hok : ∀ p ∈ f.domain.pairs, entryOkB idx p = true)
    (hne : f.domain.pairs = [] → idx = []) :
    ∃ D', sub_domain f.domain idx = Except.ok D' ∧
      ((D'.pairs = [] ∧ ∃ v, f.restrict idx = Except.ok (FieldOrScalar.scalar v) ∧
          ∀ σ : Dimension → Int, v = fieldValueAt f (overrideSlice idx σ)) ∨
       (D'.pairs ≠ [] ∧ ∃ g, f.restrict idx = Except.ok (FieldOrScalar.field g) ∧
          g.domain = D' ∧
          ∀ σ : Dimension → Int, inDomain D' σ →
            fieldValueAt g σ = fieldValueAt f (overrideSlice idx σ))) := by
  obtain ⟨h1, h2, h3, h4, h5⟩ :=
    restrict_core idx f.domain.pairs f.ndarray.shape hlen hwf hok
  refine ⟨⟨newPairs idx f.domain.pairs⟩, sub_domain_in_bounds f.domain idx h1 hne, ?_⟩
  by_cases hprs : newPairs idx f.domain.pairs = []
  · left
    refine ⟨hprs, f.ndarray.val (sliceCoord (selsOf idx f.domain.pairs) f.ndarray.shape []),
      restrict_ok_scalar f idx hlen hwf hok hprs hne, ?_⟩
    intro σ
    have hc := h5 σ (by rw [hprs]; intro p hp; simp at hp)
    rw [hprs] at hc
    simp only [List.map_nil] at hc
    unfold fieldValueAt fieldCoords
    rw [← hc]
  · right
    refine ⟨hprs, ⟨⟨newPairs idx f.domain.pairs⟩,
      f.ndarray.getItem (selsOf idx f.domain.pairs)⟩,
      restrict_ok_field f idx hlen hwf hok hprs, rfl, ?_⟩
    intro σ hσ
    have hσ' : ∀ p ∈ newPairs idx f.domain.pairs, p.2.containsIdx (σ p.1) = true := hσ
    unfold fieldValueAt fieldCoords
    rw [show (⟨⟨newPairs idx f.domain.pairs⟩,
          f.ndarray.getItem (selsOf idx f.domain.pairs)⟩ : BaseNdArrayField α).domain.pairs
        = newPairs idx f.domain.pairs from rfl]
    rw [show (⟨⟨newPairs idx f.domain.pairs⟩,
          f.ndarray.getItem (selsOf idx f.domain.pairs)⟩ : BaseNdArrayField α).ndarray
        = f.ndarray.getItem (selsOf idx f.domain.pairs) from rfl]
    rw [show (f.ndarray.getItem (selsOf idx f.domain.pairs)).shape
        = sliceShape (selsOf idx f.domain.pairs) f.ndarray.shape from rfl]
    rw [h3, List.zipWith_map_right, List.zipWith_same]
    exact congrArg f.ndarray.val (h5 σ hσ')

/-- C3 counterexample: restricting `{(I,[0,10))}` by the named range
`[-3,5)` clips the sub-domain to `[0,5)` but slices the buffer to an
empty view, so `restrict` raises an `AssertionError` instead of
returning a field over the sub-domain. -/
theorem restrict_out_of_range_cex :
    sub_domain fieldI010.domain [(dimI, EntryVal.rng ⟨-3, 5⟩)]
      = Except.ok ⟨[(dimI, ⟨0, 5⟩)]⟩ ∧
    fieldI010.restrict [(dimI, EntryVal.rng ⟨-3, 5⟩)]
      = Except.error PyErr.assertionError :=
  ⟨rfl, rfl⟩

/-- C3 witness: the dichotomy applied at a concrete field, once reaching
the scalar branch (all axes integer-indexed) and once the field branch. -/
theorem restrict_dichotomy_witness :
    (∃ D', sub_domain fieldI010.domain [(dimI, EntryVal.idx 7)] = Except.ok D' ∧
      ((D'.pairs = [] ∧ ∃ v, fieldI010.restrict [(dimI, EntryVal.idx 7)]
            = Except.ok (FieldOrScalar.scalar v) ∧
          ∀ σ : Dimension → Int,
            v = fieldValueAt fieldI010 (overrideSlice [(dimI, EntryVal.idx 7)] σ)) ∨
       (D'.pairs ≠ [] ∧ ∃ g, fieldI010.restrict [(dimI, EntryVal.idx 7)]
            = Except.ok (FieldOrScalar.field g) ∧
          g.domain = D' ∧
          ∀ σ : Dimension → Int, inDomain D' σ →
            fieldValueAt g σ
              = fieldValueAt fieldI010 (overrideSlice [(dimI, EntryVal.idx 7)] σ)))) ∧
    (∃ D', sub_domain fieldI010.domain [(dimI, EntryVal.rng ⟨2, 5⟩)] = Except.ok D' ∧
      ((D'.pairs = [] ∧ ∃ v, fieldI010.restrict [(dimI, EntryVal.rng ⟨2, 5⟩)]
            = Except.ok (FieldOrScalar.scalar v) ∧
          ∀ σ : Dimension → Int,
            v = fieldValueAt fieldI010 (overrideSlice [(dimI, EntryVal.rng ⟨2, 5⟩)] σ)) ∨
       (D'.pairs ≠ [] ∧ ∃ g, fieldI010.restrict [(dimI, EntryVal.rng ⟨2, 5⟩)]
            = Except.ok (FieldOrScalar.field g) ∧
          g.domain = D' ∧
          ∀ σ : Dimension → Int, inDomain D' σ →
            fieldValueAt g σ
              = fieldValueAt fieldI010 (overrideSlice [(dimI, EntryVal.rng ⟨2, 5⟩)] σ)))) :=
  ⟨restrict_dichotomy fieldI010 [(dimI, EntryVal.idx 7)]
      (by decide) (by decide) (by decide) (by decide),
   restrict_dichotomy fieldI010 [(dimI, EntryVal.rng ⟨2, 5⟩)]
      (by decide) (by decide) (by decide) (by decide)⟩

/-- A nonempty range contained in another intersects to itself. -/
theorem inter_of_contained (r w : UnitRange) (h1 : r.start ≤ w.start)
    (h2 : w.start < w.stop) (h3 : w.stop ≤ r.stop) : r.inter w = w := by
  unfold UnitRange.inter unitRange
  rw [max_eq_right h1, min_eq_right h3, if_pos h2]

/-- The normalized intersection has exactly the set-intersection size. -/
theorem lenNat_inter (r w : UnitRange) :
    (r.inter w).lenNat = (min r.stop w.stop - max r.start w.start).toNat := by
  unfold UnitRange.inter
  rw [lenNat_unitRange]

/-- `subDomainPairs` with every axis named by a range never fails and
intersects pointwise. -/
theorem subDomainPairs_all_rng (R : DomainSlice) (q : Dimension → UnitRange) :
    ∀ pairs : List (Dimension × UnitRange),
      (∀ p ∈ pairs, lookupEntry R p.1 = some (EntryVal.rng (q p.1))) →
      subDomainPairs R pairs
        = Except.ok (pairs.map (fun p => (p.1, p.2.inter (q p.1)))) := by
  intro pairs
  induction pairs with
  | nil => intro _; rfl
  | cons p rest ih =>
      intro h
      have hl := h p (by simp)
      rw [subDomainPairs, hl]
      dsimp only
      rw [ih (fun w hw => h w (List.mem_cons_of_mem _ hw)), emap_ok, List.map_cons]

/-- `newPairs` with every axis named by a range intersects pointwise. -/
theorem newPairs_all_rng (R : DomainSlice) (q : Dimension → UnitRange) :
    ∀ pairs : List (Dimension × UnitRange),
      (∀ p ∈ pairs, lookupEntry R p.1 = some (EntryVal.rng (q p.1))) →
      newPairs R pairs = pairs.map (fun p => (p.1, p.2.inter (q p.1))) := by
  intro pairs
  induction pairs with
  | nil => intro _; rfl
  | cons p rest ih =>
      intro h
      rw [newPairs_cons_rng R p rest (q p.1) (h p (by simp)),
          ih (fun w hw => h w (List.mem_cons_of_mem _ hw)), List.map_cons]

/-- `selsOf` with every axis named by a range produces the offset slices
pointwise. -/
theorem selsOf_all_rng (R : DomainSlice) (q : Dimension → UnitRange)
    (pairs : List (Dimension × UnitRange))
    (h : ∀ p ∈ pairs, lookupEntry R p.1 = some (EntryVal.rng (q p.1))) :
    selsOf R pairs = pairs.map (fun p =>
      Sel.sl ((q p.1).start - p.2.start) ((q p.1).stop - p.2.start)) := by
  unfold selsOf
  apply List.map_eq_map_iff.mpr
  intro p hp
  rw [h p hp]

/-- In-bounds named entry built from a contained range. -/
theorem entryOk_of_rng (idx : DomainSlice) (p : Dimension × UnitRange) (q : UnitRange)
    (hl : lookupEntry idx p.1 = some (EntryVal.rng q))
    (h1 : p.2.start ≤ q.start) (h2 : q.start ≤ q.stop) (h3 : q.stop ≤ p.2.stop) :
    entryOkB idx p = true := by
  unfold entryOkB
  rw [hl]
  simp [h1, h2, h3]

/-- Axes whose buffer sizes are exactly the range lengths satisfy the
per-axis well-formedness bundle. -/
theorem wf_of_lenNat_shape (pairs' : List (Dimension × UnitRange))
    (hbnd : ∀ p ∈ pairs', p.2.bounded = true) :
    ∀ pr ∈ List.zip pairs' ((pairs'.map (fun p => p.2.lenNat) : List Nat)),
      pr.1.2.bounded = true ∧ pr.1.2.len = (pr.2 : Int) := by
  induction pairs' with
  | nil => intro pr hpr; simp at hpr
  | cons p rest ih =>
      intro pr hpr
      rw [List.map_cons, List.zip_cons_cons] at hpr
      rcases List.mem_cons.mp hpr with rfl | hmem
      · have hb := hbnd p (by simp)
        refine ⟨hb, ?_⟩
        show p.2.len = ((p.2.lenNat : Nat) : Int)
        simp [UnitRange.bounded] at hb
        unfold UnitRange.len UnitRange.lenNat
        omega
      · exact ih (fun w hw => hbnd w (List.mem_cons_of_mem _ hw)) pr hmem

/-- Composing the buffer slices of two consecutive in-bounds range
restrictions equals the buffer slice of the intersected restriction, at
every coordinate. -/
theorem c8_coord (R1 R2 R12 : DomainSlice) (q1 q2 : Dimension → UnitRange) :
    ∀ (pairs : List (Dimension × UnitRange)) (sh : List Nat) (c : List Nat),
      pairs.length = sh.length →
      (∀ pr ∈ List.zip pairs sh, pr.1.2.bounded = true ∧ pr.1.2.len = (pr.2 : Int)) →
      (∀ p ∈ pairs, lookupEntry R1 p.1 = some (EntryVal.rng (q1 p.1))) →
      (∀ p ∈ pairs, lookupEntry R2 p.1 = some (EntryVal.rng (q2 p.1))) →
      (∀ p ∈ pairs, lookupEntry R12 p.1 = some (EntryVal.rng ((q1 p.1).inter (q2 p.1)))) →
      (∀ p ∈ pairs, p.2.start ≤ (q1 p.1).start ∧ (q1 p.1).start < (q1 p.1).stop
        ∧ (q1 p.1).stop ≤ p.2.stop) →
      (∀ p ∈ pairs, (q1 p.1).start ≤ (q2 p.1).start ∧ (q2 p.1).start < (q2 p.1).stop
        ∧ (q2 p.1).stop ≤ (q1 p.1).stop) →
      sliceCoord (selsOf R1 pairs) sh
        (sliceCoord (selsOf R2 (pairs.map (fun p => (p.1, q1 p.1))))
          (pairs.map (fun p => (q1 p.1).lenNat)) c)
      = sliceCoord (selsOf R12 pairs) sh c := by
  intro pairs
  induction pairs with
  | nil => intro sh c _ _ _ _ _ _ _; rfl
  | cons p rest ih =>
      intro sh c hlen hwf h1 h2 h3 hs1 hs2
      cases sh with
      | nil => simp at hlen
      | cons s sh' =>
          have hlen' : rest.length = sh'.length := by simpa using hlen
          have hhead := hwf (p, s) (by simp [List.zip_cons_cons])
          have hlenp : p.2.stop - p.2.start = (s : Int) := hhead.2
          have hq1 := hs1 p (by simp)
          have hq2 := hs2 p (by simp)
          have hwf' : ∀ pr ∈ List.zip rest sh', pr.1.2.bounded = true ∧ pr.1.2.len = (pr.2 : Int) :=
            fun pr hpr => hwf pr (by simp [List.zip_cons_cons, hpr])
          rw [selsOf_cons_rng R1 p rest (q1 p.1) (h1 p (by simp))]
          rw [selsOf_cons_rng R12 p rest ((q1 p.1).inter (q2 p.1)) (h3 p (by simp))]
          rw [List.map_cons, List.map_cons]
          rw [selsOf_cons_rng R2 ((p.1, q1 p.1) : Dimension × UnitRange)
                (rest.map (fun w => (w.1, q1 w.1))) (q2 p.1) (h2 p (by simp))]
          rw [show ((p.1, q1 p.1) : Dimension × UnitRange).2 = q1 p.1 from rfl]
          rw [inter_of_contained (q1 p.1) (q2 p.1) hq2.1 hq2.2.1 hq2.2.2]
          rw [show sliceCoord (Sel.sl ((q2 p.1).start - (q1 p.1).start)
                  ((q2 p.1).stop - (q1 p.1).start) :: selsOf R2 (rest.map (fun w => (w.1, q1 w.1))))
                ((q1 p.1).lenNat :: rest.map (fun w => (q1 w.1).lenNat)) c
              = (normStart ((q2 p.1).start - (q1 p.1).start) (q1 p.1).lenNat + c.headD 0)
                  :: sliceCoord (selsOf R2 (rest.map (fun w => (w.1, q1 w.1))))
                      (rest.map (fun w => (q1 w.1).lenNat)) c.tail from rfl]
          rw [show sliceCoord (Sel.sl ((q1 p.1).start - p.2.start) ((q1 p.1).stop - p.2.start)
                  :: selsOf R1 rest) (s :: sh')
                ((normStart ((q2 p.1).start - (q1 p.1).start) (q1 p.1).lenNat + c.headD 0)
                  :: sliceCoord (selsOf R2 (rest.map (fun w => (w.1, q1 w.1))))
                      (rest.map (fun w => (q1 w.1).lenNat)) c.tail)
              = (normStart ((q1 p.1).start - p.2.start) s
                  + (normStart ((q2 p.1).start - (q1 p.1).start) (q1 p.1).lenNat + c.headD 0))
                  :: sliceCoord (selsOf R1 rest) sh'
                      (sliceCoord (selsOf R2 (rest.map (fun w => (w.1, q1 w.1))))
                        (rest.map (fun w => (q1 w.1).lenNat)) c.tail) from rfl]
          rw [show sliceCoord (Sel.sl ((q2 p.1).start - p.2.start) ((q2 p.1).stop - p.2.start)
                  :: selsOf R12 rest) (s :: sh') c
              = (normStart ((q2 p.1).start - p.2.start) s + c.headD 0)
                  :: sliceCoord (selsOf R12 rest) sh' c.tail from rfl]
          congr 1
          · rw [normStart_of_bounds _ _ (by omega) (by omega),
                normStart_of_bounds _ _ (by omega)
                  (by unfold UnitRange.lenNat; omega),
                normStart_of_bounds _ _ (by omega) (by omega)]
            omega
          · exact ih sh' c.tail hlen' hwf'
              (fun w hw => h1 w (List.mem_cons_of_mem _ hw))
              (fun w hw => h2 w (List.mem_cons_of_mem _ hw))
              (fun w hw => h3 w (List.mem_cons_of_mem _ hw))
              (fun w hw => hs1 w (List.mem_cons_of_mem _ hw))
              (fun w hw => hs2 w (List.mem_cons_of_mem _ hw))

/-- Containment in a bounded range is bounded. -/
theorem bounded_of_contained (r w : UnitRange) (hb : r.bounded = true)
    (h1 : r.start ≤ w.start) (h2 : w.start ≤ w.stop) (h3 : w.stop ≤ r.stop) :
    w.bounded = true := by
  simp [UnitRange.bounded] at hb ⊢
  omega

/-- C8: (a) `sub_domain` with a bounded sub-range named for each axis
yields a domain whose axis ranges are the pointwise intersections, with
axis lengths equal to the set-intersection lengths; (b) restricting
twice by nonempty in-bounds range specifications equals restricting once
by their intersection (same domain, extensionally equal buffers). -/
theorem restrict_restrict_intersection {α : Type} :
    (∀ (D : Domain) (R : DomainSlice) (q : Dimension → UnitRange),
      (∀ p ∈ D.pairs, lookupEntry R p.1 = some (EntryVal.rng (q p.1))) →
      (D.pairs = [] → R = []) →
      ∃ D', sub_domain D R = Except.ok D' ∧
        D'.pairs = D.pairs.map (fun p => (p.1, p.2.inter (q p.1))) ∧
        D'.ranges.map UnitRange.lenNat
          = D.pairs.map (fun p =>
              (min p.2.stop (q p.1).stop - max p.2.start (q p.1).start).toNat)) ∧
    (∀ (f : BaseNdArrayField α) (R1 R2 R12 : DomainSlice) (q1 q2 : Dimension → UnitRange),
      f.domain.pairs.length = f.ndarray.shape.length →
      (∀ pr ∈ List.zip f.domain.pairs f.ndarray.shape,
        pr.1.2.bounded = true ∧ pr.1.2.len = (pr.2 : Int)) →
      (∀ p ∈ f.domain.pairs, p.2.bounded = true) →
      f.domain.pairs ≠ [] →
      (∀ p ∈ f.domain.pairs, lookupEntry R1 p.1 = some (EntryVal.rng (q1 p.1))) →
      (∀ p ∈ f.domain.pairs, lookupEntry R2 p.1 = some (EntryVal.rng (q2 p.1))) →
      (∀ p ∈ f.domain.pairs,
        lookupEntry R12 p.1 = some (EntryVal.rng ((q1 p.1).inter (q2 p.1)))) →
      (∀ p ∈ f.domain.pairs, p.2.start ≤ (q1 p.1).start ∧ (q1 p.1).start < (q1 p.1).stop
        ∧ (q1 p.1).stop ≤ p.2.stop) →
      (∀ p ∈ f.domain.pairs, (q1 p.1).start ≤ (q2 p.1).start ∧ (q2 p.1).start < (q2 p.1).stop
        ∧ (q2 p.1).stop ≤ (q1 p.1).stop) →
      ∃ g1 c1 c2, f.restrict R1 = Except.ok (FieldOrScalar.field g1) ∧
        g1.restrict R2 = Except.ok (FieldOrScalar.field c1) ∧
        f.restrict R12 = Except.ok (FieldOrScalar.field c2) ∧
        FieldEquiv c1 c2) := by
  constructor
  · intro D R q hq hne
    refine ⟨⟨D.pairs.map (fun p => (p.1, p.2.inter (q p.1)))⟩, ?_, rfl, ?_⟩
    · unfold sub_domain
      rw [if_neg, subDomainPairs_all_rng R q D.pairs hq, emap_ok]
      rintro ⟨h0, hni⟩
      exact hni (hne (List.length_eq_zero.mp h0))
    · rw [show (⟨D.pairs.map (fun p => (p.1, p.2.inter (q p.1)))⟩ : Domain).ranges
            = (D.pairs.map (fun p => (p.1, p.2.inter (q p.1)))).map Prod.snd from rfl]
      rw [List.map_map, List.map_map]
      apply List.map_eq_map_iff.mpr
      intro p _
      show (p.2.inter (q p.1)).lenNat = _
      rw [lenNat_inter]
  · intro f R1 R2 R12 q1 q2 hlen hwf hbnd hpne h1 h2 h3 hs1 hs2
    have hok1 : ∀ p ∈ f.domain.pairs, entryOkB R1 p = true := fun p hp =>
      entryOk_of_rng R1 p (q1 p.1) (h1 p hp) (hs1 p hp).1
        (le_of_lt (hs1 p hp).2.1) (hs1 p hp).2.2
    have hnp1 : newPairs R1 f.domain.pairs
        = f.domain.pairs.map (fun p => (p.1, q1 p.1)) := by
      rw [newPairs_all_rng R1 q1 _ h1]
      apply List.map_eq_map_iff.mpr
      intro p hp
      rw [inter_of_contained p.2 (q1 p.1) (hs1 p hp).1 (hs1 p hp).2.1 (hs1 p hp).2.2]
    have hnem1 : newPairs R1 f.domain.pairs ≠ [] := by
      rw [hnp1]
      intro h0
      exact hpne (List.map_eq_nil_iff.mp h0)
    obtain ⟨hc1a, hc1b, hc1c, hc1d, hc1e⟩ :=
      restrict_core R1 f.domain.pairs f.ndarray.shape hlen hwf hok1
    have hrest1 := restrict_ok_field f R1 hlen hwf hok1 hnem1
    refine ⟨⟨⟨newPairs R1 f.domain.pairs⟩, f.ndarray.getItem (selsOf R1 f.domain.pairs)⟩,
      ?_⟩
    set G1 : BaseNdArrayField α :=
      ⟨⟨newPairs R1 f.domain.pairs⟩, f.ndarray.getItem (selsOf R1 f.domain.pairs)⟩ with hG1
    have hg1pairs : G1.domain.pairs = f.domain.pairs.map (fun p => (p.1, q1 p.1)) := by
      rw [show G1.domain.pairs = newPairs R1 f.domain.pairs from rfl, hnp1]
    have hg1shape : G1.ndarray.shape
        = (f.domain.pairs.map (fun p => (p.1, q1 p.1))).map (fun p => p.2.lenNat) := by
      rw [show G1.ndarray.shape
            = sliceShape (selsOf R1 f.domain.pairs) f.ndarray.shape from rfl, hc1c, hnp1]
    have hbnd1 : ∀ p' ∈ f.domain.pairs.map (fun p => (p.1, q1 p.1)), p'.2.bounded = true := by
      intro p' hp'
      obtain ⟨p, hp, rfl⟩ := List.mem_map.mp hp'
      exact bounded_of_contained p.2 (q1 p.1) (hbnd p hp) (hs1 p hp).1
        (le_of_lt (hs1 p hp).2.1) (hs1 p hp).2.2
    have hlen1 : G1.domain.pairs.length = G1.ndarray.shape.length := by
      rw [hg1pairs, hg1shape]
      simp
    have hwf1 : ∀ pr ∈ List.zip G1.domain.pairs G1.ndarray.shape,
        pr.1.2.bounded = true ∧ pr.1.2.len = (pr.2 : Int) := by
      rw [hg1pairs, hg1shape]
      exact wf_of_lenNat_shape _ hbnd1
    have hok2 : ∀ p' ∈ G1.domain.pairs, entryOkB R2 p' = true := by
      rw [hg1pairs]
      intro p' hp'
      obtain ⟨p, hp, rfl⟩ := List.mem_map.mp hp'
      exact entryOk_of_rng R2 (p.1, q1 p.1) (q2 p.1) (h2 p hp) (hs2 p hp).1
        (le_of_lt (hs2 p hp).2.1) (hs2 p hp).2.2
    have hq2lk : ∀ p' ∈ f.domain.pairs.map (fun p => (p.1, q1 p.1)),
        lookupEntry R2 p'.1 = some (EntryVal.rng (q2 p'.1)) := by
      intro p' hp'
      obtain ⟨p, hp, rfl⟩ := List.mem_map.mp hp'
      exact h2 p hp
    have hnp2 : newPairs R2 G1.domain.pairs
        = f.domain.pairs.map (fun p => (p.1, q2 p.1)) := by
      rw [hg1pairs, newPairs_all_rng R2 q2 _ hq2lk, List.map_map]
      apply List.map_eq_map_iff.mpr
      intro p hp
      show (p.1, (q1 p.1).inter (q2 p.1)) = (p.1, q2 p.1)
      rw [inter_of_contained (q1 p.1) (q2 p.1) (hs2 p hp).1 (hs2 p hp).2.1 (hs2 p hp).2.2]
    have hnem2 : newPairs R2 G1.domain.pairs ≠ [] := by
      rw [hnp2]
      intro h0
      exact hpne (List.map_eq_nil_iff.mp h0)
    obtain ⟨hc2a, hc2b, hc2c, hc2d, hc2e⟩ :=
      restrict_core R2 G1.domain.pairs G1.ndarray.shape hlen1 hwf1 hok2
    have hrest2 := restrict_ok_field G1 R2 hlen1 hwf1 hok2 hnem2
    have hq12 : ∀ p ∈ f.domain.pairs, (q1 p.1).inter (q2 p.1) = q2 p.1 := fun p hp =>
      inter_of_contained (q1 p.1) (q2 p.1) (hs2 p hp).1 (hs2 p hp).2.1 (hs2 p hp).2.2
    have hs12 : ∀ p ∈ f.domain.pairs,
        p.2.start ≤ ((q1 p.1).inter (q2 p.1)).start
        ∧ ((q1 p.1).inter (q2 p.1)).start < ((q1 p.1).inter (q2 p.1)).stop
        ∧ ((q1 p.1).inter (q2 p.1)).stop ≤ p.2.stop := by
      intro p hp
      rw [hq12 p hp]
      exact ⟨le_trans (hs1 p hp).1 (hs2 p hp).1, (hs2 p hp).2.1,
        le_trans (hs2 p hp).2.2 (hs1 p hp).2.2⟩
    have hok3 : ∀ p ∈ f.domain.pairs, entryOkB R12 p = true := fun p hp =>
      entryOk_of_rng R12 p ((q1 p.1).inter (q2 p.1)) (h3 p hp) (hs12 p hp).1
        (le_of_lt (hs12 p hp).2.1) (hs12 p hp).2.2
    have hnp3 : newPairs R12 f.domain.pairs
        = f.domain.pairs.map (fun p => (p.1, q2 p.1)) := by
      rw [newPairs_all_rng R12 (fun d => (q1 d).inter (q2 d)) _ h3]
      apply List.map_eq_map_iff.mpr
      intro p hp
      rw [inter_of_contained p.2 ((q1 p.1).inter (q2 p.1)) (hs12 p hp).1
            (hs12 p hp).2.1 (hs12 p hp).2.2, hq12 p hp]
    have hnem3 : newPairs R12 f.domain.pairs ≠ [] := by
      rw [hnp3]
      intro h0
      exact hpne (List.map_eq_nil_iff.mp h0)
    obtain ⟨hc3a, hc3b, hc3c, hc3d, hc3e⟩ :=
      restrict_core R12 f.domain.pairs f.ndarray.shape hlen hwf hok3
    have hrest3 := restrict_ok_field f R12 hlen hwf hok3 hnem3
    refine ⟨⟨⟨newPairs R2 G1.domain.pairs⟩, G1.ndarray.getItem (selsOf R2 G1.domain.pairs)⟩,
      ⟨⟨newPairs R12 f.domain.pairs⟩, f.ndarray.getItem (selsOf R12 f.domain.pairs)⟩,
      hrest1, hrest2, hrest3, ?_, ?_, ?_⟩
    · show (⟨newPairs R2 G1.domain.pairs⟩ : Domain) = ⟨newPairs R12 f.domain.pairs⟩
      rw [hnp2, hnp3]
    · show sliceShape (selsOf R2 G1.domain.pairs) G1.ndarray.shape
        = sliceShape (selsOf R12 f.domain.pairs) f.ndarray.shape
      rw [hc2c, hc3c, hnp2, hnp3]
    · intro c _
      show G1.ndarray.val (sliceCoord (selsOf R2 G1.domain.pairs) G1.ndarray.shape c)
        = f.ndarray.val (sliceCoord (selsOf R12 f.domain.pairs) f.ndarray.shape c)
      rw [show G1.ndarray.val = fun x =>
            f.ndarray.val (sliceCoord (selsOf R1 f.domain.pairs) f.ndarray.shape x) from rfl]
      apply congrArg f.ndarray.val
      rw [show G1.domain.pairs = newPairs R1 f.domain.pairs from rfl, hnp1, hg1shape,
          List.map_map]
      rw [show ((fun (p : Dimension × UnitRange) => p.2.lenNat)
            ∘ (fun (p : Dimension × UnitRange) => (p.1, q1 p.1)))
          = fun (p : Dimension × UnitRange) => (q1 p.1).lenNat from rfl]
      exact c8_coord R1 R2 R12 q1 q2 f.domain.pairs f.ndarray.shape c hlen hwf h1 h2 h3 hs1 hs2

/-- C8 counterexample: with `f` over `{(I,[0,10))}`, `R1 = {I: [2,8)}`
and `R2 = {I: [0,5)}` (both bounded, consistently named), the repeated
restriction raises an `AssertionError` while restricting by the
intersection `{I: [2,5)}` succeeds, so the two sides are not equal. -/
theorem restrict_restrict_cex :
    fieldI010.restrict [(dimI, EntryVal.rng ⟨2, 8⟩)]
      = Except.ok (FieldOrScalar.field
          ⟨⟨[(dimI, ⟨2, 8⟩)]⟩, fieldI010.ndarray.getItem [Sel.sl 2 8]⟩) ∧
    (⟨⟨[(dimI, ⟨2, 8⟩)]⟩, fieldI010.ndarray.getItem [Sel.sl 2 8]⟩
        : BaseNdArrayField Int).restrict [(dimI, EntryVal.rng ⟨0, 5⟩)]
      = Except.error PyErr.assertionError ∧
    fieldI010.restrict [(dimI, EntryVal.rng ⟨2, 5⟩)]
      = Except.ok (FieldOrScalar.field
          ⟨⟨[(dimI, ⟨2, 5⟩)]⟩, fieldI010.ndarray.getItem [Sel.sl 2 5]⟩) :=
  ⟨rfl, rfl, rfl⟩

/-- C8 witness: part (a) applied at a disjoint named range (intersection
length 0) and part (b) applied at nested concrete ranges. -/
theorem restrict_restrict_intersection_witness :
    (∃ D', sub_domain fieldI010.domain [(dimI, EntryVal.rng ⟨20, 30⟩)] = Except.ok D' ∧
      D'.pairs = fieldI010.domain.pairs.map
        (fun p => (p.1, p.2.inter ((fun _ => (⟨20, 30⟩ : UnitRange)) p.1))) ∧
      D'.ranges.map UnitRange.lenNat
        = fieldI010.domain.pairs.map (fun p =>
            (min p.2.stop ((fun _ => (⟨20, 30⟩ : UnitRange)) p.1).stop
              - max p.2.start ((fun _ => (⟨20, 30⟩ : UnitRange)) p.1).start).toNat)) ∧
    (∃ g1 c1 c2, fieldI010.restrict [(dimI, EntryVal.rng ⟨2, 8⟩)]
        = Except.ok (FieldOrScalar.field g1) ∧
      g1.restrict [(dimI, EntryVal.rng ⟨3, 6⟩)] = Except.ok (FieldOrScalar.field c1) ∧
      fieldI010.restrict [(dimI, EntryVal.rng ⟨3, 6⟩)] = Except.ok (FieldOrScalar.field c2) ∧
      FieldEquiv c1 c2) :=
  ⟨(restrict_restrict_intersection (α := Int)).1 fieldI010.domain
      [(dimI, EntryVal.rng ⟨20, 30⟩)]
      (fun _ => ⟨20, 30⟩) (by decide) (by decide),
   (restrict_restrict_intersection (α := Int)).2 fieldI010 [(dimI, EntryVal.rng ⟨2, 8⟩)]
      [(dimI, EntryVal.rng ⟨3, 6⟩)] [(dimI, EntryVal.rng ⟨3, 6⟩)]
      (fun _ => ⟨2, 8⟩) (fun _ => ⟨3, 6⟩)
      (by decide) (by decide) (by decide) (by decide) (by decide) (by decide) (by decide)
      (by decide) (by decide)⟩

/-- `zipWith` as a map over the zip. -/
theorem zipWith_eq_map_zip (f : γ → δ → ε) (l1 : List γ) (l2 : List δ) :
    List.zipWith f l1 l2 = (List.zip l1 l2).map (fun p => f p.1 p.2) := by
  induction l1 generalizing l2 with
  | nil => simp
  | cons a t ih =>
      cases l2 with
      | nil => simp
      | cons b t2 => simp [ih]

/-- Zipping a list with a map of itself pairs pointwise. -/
theorem zip_self_map (l : List γ) (g : γ → δ) :
    List.zip l (l.map g) = l.map (fun x => (x, g x)) := by
  induction l with
  | nil => rfl
  | cons a t ih => simp [ih]

/-- Cons unfolding of `lookupEntry`. -/
theorem lookupEntry_cons (d0 : Dimension) (v : EntryVal) (rest : DomainSlice) (d : Dimension) :
    lookupEntry ((d0, v) :: rest) d
      = if d0 == d then some v else lookupEntry rest d := by
  unfold lookupEntry _find_index_of_dim
  rw [List.findIdx?_cons]
  by_cases h : (d0 == d) = true
  · simp [h]
  · simp only [Bool.not_eq_true] at h
    simp only [h, if_neg, Bool.false_eq_true, not_false_iff]
    cases hf : rest.findIdx? (fun p => p.1 == d) with
    | none => simp [hf]
    | some pos => simp [hf]

/-- Looking up a dimension in a tabulated slice returns its entry. -/
theorem lookupEntry_map_self (E : Dimension → EntryVal) :
    ∀ (P : List Dimension), P.Nodup → ∀ d ∈ P,
      lookupEntry (P.map (fun e => (e, E e))) d = some (E d) := by
  intro P
  induction P with
  | nil => intro _ d hd; simp at hd
  | cons e rest ih =>
      intro hnd d hd
      rw [List.map_cons, lookupEntry_cons]
      rcases List.mem_cons.mp hd with rfl | hmem
      · simp
      · have hne : ¬ (e == d) = true := by
          simp only [beq_iff_eq]
          intro he
          subst he
          exact (List.nodup_cons.mp hnd).1 hmem
        rw [if_neg hne]
        exact ih (List.nodup_cons.mp hnd).2 d hmem

/-- The spec-side translator with every axis named by a range: an
unbounded axis collapses to select-everything, a bounded one to the
offset slice. -/
theorem slicesSpecGo_all_rng (S : DomainSlice) (qq : Dimension → UnitRange) :
    ∀ pairs : List (Dimension × UnitRange),
      (∀ p ∈ pairs, lookupEntry S p.1 = some (EntryVal.rng (qq p.1))) →
      slicesSpecGo S pairs = Except.ok (pairs.map (fun p =>
        if p.2 = UnitRange.infinity then Sel.all
        else Sel.sl ((qq p.1).start - p.2.start) ((qq p.1).stop - p.2.start))) := by
  intro pairs
  induction pairs with
  | nil => intro _; rfl
  | cons p rest ih =>
      intro h
      rw [slicesSpecGo, h p (by simp)]
      rw [show selectorSpec (some (EntryVal.rng (qq p.1))) p.2
            = if p.2 = UnitRange.infinity then pure Sel.all
              else pure (Sel.sl ((qq p.1).start - p.2.start) ((qq p.1).stop - p.2.start))
            from rfl]
      rw [ih (fun w hw => h w (List.mem_cons_of_mem _ hw))]
      by_cases hinf : p.2 = UnitRange.infinity
      · rw [if_pos hinf, epure_bind, ebind_ok, List.map_cons, if_pos hinf]
        rfl
      · rw [if_neg hinf, epure_bind, ebind_ok, List.map_cons, if_neg hinf]
        rfl

/-- In a duplicate-free pair list, `find?` at a member's key returns that
member. -/
theorem find?_of_mem_nodup :
    ∀ (ps : List (Dimension × UnitRange)), (ps.map Prod.fst).Nodup →
      ∀ p ∈ ps, ps.find? (fun w => w.1 == p.1) = some p := by
  intro ps
  induction ps with
  | nil => intro _ p hp; simp at hp
  | cons w rest ih =>
      intro hnd p hp
      rcases List.mem_cons.mp hp with rfl | hmem
      · rw [List.find?_cons_of_pos _ (by simp)]
      · have hne : ¬ (w.1 == p.1) = true := by
          simp only [beq_iff_eq]
          intro he
          rw [List.map_cons, List.nodup_cons] at hnd
          exact hnd.1 (he ▸ List.mem_map_of_mem Prod.fst hmem)
        exact (@List.find?_cons_of_neg _ (fun z => z.1 == p.1) w rest hne).trans
          (ih (by rw [List.map_cons, List.nodup_cons] at hnd; exact hnd.2) p hmem)

/-- The dimension-ordered union of duplicate-free axis lists is
duplicate-free. -/
theorem promote_nodup (d1 d2 : List Dimension) (h1 : d1.Nodup) (h2 : d2.Nodup) :
    (promote_dims d1 d2).Nodup := by
  unfold promote_dims
  apply List.Nodup.append h1 (List.Nodup.filter _ h2)
  intro x hx1 hx2
  have := List.of_mem_filter hx2
  simp at this
  exact this hx1

/-- Empty Python slice selects nothing on any axis. -/
theorem sliceLenPy_refl (x : Int) (n : Nat) : sliceLenPy x x n = 0 := by
  unfold sliceLenPy normStop
  omega

/-- Length of a normalized range is nonnegative by construction. -/
theorem unitRange_len_nonneg (x y : Int) : 0 ≤ (unitRange x y).len := by
  unfold unitRange UnitRange.len
  split
  · simp only
    omega
  · simp only
    omega

/-- Numpy broadcasting against a length-1 axis keeps the other length. -/
theorem bcastDim_one_right (x : Nat) : bcastDim x 1 = x := by
  unfold bcastDim
  split
  · omega
  · rfl

/-- Numpy broadcasting of equal lengths. -/
theorem bcastDim_same (x : Nat) : bcastDim x x = x := by
  unfold bcastDim
  split
  · omega
  · rfl

/-- The intersection of two unbounded ranges is unbounded. -/
theorem inter_inf_inf :
    UnitRange.inter UnitRange.infinity UnitRange.infinity = UnitRange.infinity := by
  unfold UnitRange.inter UnitRange.infinity unitRange
  rw [if_pos (by norm_num [INF])]
  simp

/-- Intersection with a bounded operand is never the unbounded
placeholder. -/
theorem inter_ne_inf_left (r w : UnitRange) (hb : r.bounded = true) :
    r.inter w ≠ UnitRange.infinity := by
  simp [UnitRange.bounded] at hb
  unfold UnitRange.inter unitRange
  split
  · intro he
    rw [show UnitRange.infinity = ⟨-INF, INF⟩ from rfl] at he
    have h1 : max r.start w.start = -INF := congrArg UnitRange.start he
    omega
  · intro he
    rw [show UnitRange.infinity = ⟨-INF, INF⟩ from rfl] at he
    have h1 : (0 : Int) = -INF := congrArg UnitRange.start he
    have : (0 : Int) < INF := by norm_num [INF]
    omega

/-- Intersection with the unbounded range is the normalization of the
other operand. -/
theorem inter_inf_left (w : UnitRange) (hb : w.bounded = true) :
    UnitRange.inter UnitRange.infinity w = unitRange w.start w.stop := by
  simp [UnitRange.bounded] at hb
  unfold UnitRange.inter UnitRange.infinity
  simp only
  rw [max_eq_right (by omega), min_eq_right (by omega)]

/-- Intersection with the unbounded range on the right. -/
theorem inter_inf_right (w : UnitRange) (hb : w.bounded = true) :
    UnitRange.inter w UnitRange.infinity = unitRange w.start w.stop := by
  simp [UnitRange.bounded] at hb
  unfold UnitRange.inter UnitRange.infinity
  simp only
  rw [max_eq_left (by omega), min_eq_left (by omega)]

/-- A range intersection is normalized and contained in both operands,
or collapses to the empty range. -/
theorem inter_contained_or_empty (r w : UnitRange) :
    ((r.inter w).start ≤ (r.inter w).stop) ∧
    ((r.start ≤ (r.inter w).start ∧ (r.inter w).stop ≤ r.stop ∧
      w.start ≤ (r.inter w).start ∧ (r.inter w).stop ≤ w.stop) ∨ r.inter w = ⟨0, 0⟩) := by
  unfold UnitRange.inter unitRange
  split
  · refine ⟨by simp only; omega, Or.inl ?_⟩
    exact ⟨le_max_left _ _, min_le_left _ _, le_max_right _ _, min_le_right _ _⟩
  · exact ⟨le_refl 0, Or.inr rfl⟩

/-- The length of a range intersection is nonnegative. -/
theorem inter_len_nonneg (r w : UnitRange) : 0 ≤ (r.inter w).len :=
  unitRange_len_nonneg _ _

/-- Broadcast range of an operand at a promoted axis: the operand's own
range, or the unbounded placeholder for an axis it lacks
(`_compute_new_domain_info`'s per-axis rule, as a lookup function). -/
def brangeD (pairs : List (Dimension × UnitRange)) (d : Dimension) : UnitRange :=
  ((pairs.find? (fun w => w.1 == d)).map Prod.snd).getD UnitRange.infinity

/-- Broadcast buffer size of an operand at a promoted axis: the size of
its own buffer axis, or the inserted size-1 axis for one it lacks. -/
def bsizeD (pairs : List (Dimension × UnitRange)) (shape : List Nat) (d : Dimension) : Nat :=
  match (List.zip pairs shape).find? (fun x => x.1.1 == d) with
  | some x => x.2
  | none => 1

/-- Buffer size of an operand at a promoted axis after slicing its
broadcast down to the intersected range `R`. -/
def esizeD (R : Dimension → UnitRange) (pairs : List (Dimension × UnitRange)) (d : Dimension) :
    Nat :=
  if brangeD pairs d = UnitRange.infinity then 1 else (R d).lenNat

/-- Broadcast range at the operand's own leading axis. -/
theorem brangeD_cons_hit (p : Dimension × UnitRange) (pr : List (Dimension × UnitRange))
    (d : Dimension) (h : p.1 = d) : brangeD (p :: pr) d = p.2 := by
  unfold brangeD
  rw [List.find?_cons_of_pos _ (by simp [h])]
  rfl

/-- Broadcast range skips a non-matching leading axis. -/
theorem brangeD_cons_miss (p : Dimension × UnitRange) (pr : List (Dimension × UnitRange))
    (d : Dimension) (h : ¬ p.1 = d) : brangeD (p :: pr) d = brangeD pr d := by
  unfold brangeD
  rw [@List.find?_cons_of_neg _ (fun w => w.1 == d) p pr (by simp [h])]

/-- A missing axis broadcasts to the unbounded placeholder range. -/
theorem brangeD_not_mem (pairs : List (Dimension × UnitRange)) (d : Dimension)
    (h : ¬ d ∈ pairs.map Prod.fst) : brangeD pairs d = UnitRange.infinity := by
  unfold brangeD
  have hn : pairs.find? (fun w => w.1 == d) = none :=
    List.find?_eq_none.mpr (fun x hx => by
      simp only [beq_iff_eq]
      intro he
      exact h (he ▸ List.mem_map_of_mem Prod.fst hx))
  rw [hn]
  rfl

/-- Broadcast size at the operand's own leading axis. -/
theorem bsizeD_cons_hit (p : Dimension × UnitRange) (s : Nat)
    (pr : List (Dimension × UnitRange)) (sh : List Nat) (d : Dimension) (h : p.1 = d) :
    bsizeD (p :: pr) (s :: sh) d = s := by
  unfold bsizeD
  rw [List.zip_cons_cons, List.find?_cons_of_pos _ (by simp [h])]

/-- Broadcast size skips a non-matching leading axis. -/
theorem bsizeD_cons_miss (p : Dimension × UnitRange) (s : Nat)
    (pr : List (Dimension × UnitRange)) (sh : List Nat) (d : Dimension) (h : ¬ p.1 = d) :
    bsizeD (p :: pr) (s :: sh) d = bsizeD pr sh d := by
  unfold bsizeD
  rw [List.zip_cons_cons,
      @List.find?_cons_of_neg _ (fun x => x.1.1 == d) (p, s) (List.zip pr sh) (by simp [h])]

/-- A missing axis broadcasts to a size-1 buffer axis. -/
theorem bsizeD_not_mem (pairs : List (Dimension × UnitRange)) (shape : List Nat) (d : Dimension)
    (h : ¬ d ∈ pairs.map Prod.fst) : bsizeD pairs shape d = 1 := by
  unfold bsizeD
  have hn : (List.zip pairs shape).find? (fun x => x.1.1 == d) = none :=
    List.find?_eq_none.mpr (fun x hx => by
      simp only [beq_iff_eq]
      intro he
      exact h (he ▸ List.mem_map_of_mem Prod.fst (List.of_mem_zip hx).1))
  rw [hn]

/-- The Python slice derived from a sub-range contained in a bounded
axis selects exactly the sub-range's length. -/
theorem sliceLenPy_sub (w q : UnitRange) (n : Nat)
    (hw : w.stop - w.start = (n : Int)) (h1 : w.start ≤ q.start) (h2 : q.start ≤ q.stop)
    (h3 : q.stop ≤ w.stop) :
    sliceLenPy (q.start - w.start) (q.stop - w.start) n = q.lenNat := by
  unfold sliceLenPy normStop UnitRange.lenNat
  rw [normStart_of_bounds _ _ (by omega) (by omega),
      normStart_of_bounds _ _ (by omega) (by omega)]
  omega

/-- Shape step of a full-pass selector. -/
theorem sliceShape_cons_all (L : List Sel) (n : Nat) (sh : List Nat) :
    sliceShape (Sel.all :: L) (n :: sh) = n :: sliceShape L sh := rfl

/-- Shape step of an inserted axis. -/
theorem sliceShape_cons_newaxis (L : List Sel) (sh : List Nat) :
    sliceShape (Sel.newaxis :: L) sh = 1 :: sliceShape L sh := by
  cases sh <;> rfl

/-- Shape step of a contiguous slice selector. -/
theorem sliceShape_cons_sl (a b : Int) (L : List Sel) (n : Nat) (sh : List Nat) :
    sliceShape (Sel.sl a b :: L) (n :: sh) = sliceLenPy a b n :: sliceShape L sh := rfl

/-- Coordinate step of a full-pass selector. -/
theorem sliceCoord_cons_all (L : List Sel) (n : Nat) (sh : List Nat) (x : Nat) (c : List Nat) :
    sliceCoord (Sel.all :: L) (n :: sh) (x :: c) = x :: sliceCoord L sh c := rfl

/-- Coordinate step of an inserted axis (the coordinate is dropped). -/
theorem sliceCoord_cons_newaxis (L : List Sel) (sh : List Nat) (x : Nat) (c : List Nat) :
    sliceCoord (Sel.newaxis :: L) sh (x :: c) = sliceCoord L sh c := by
  cases sh <;> rfl

/-- Coordinate step of a contiguous slice selector. -/
theorem sliceCoord_cons_sl (a b : Int) (L : List Sel) (n : Nat) (sh : List Nat) (x : Nat)
    (c : List Nat) :
    sliceCoord (Sel.sl a b :: L) (n :: sh) (x :: c) = (normStart a n + x) :: sliceCoord L sh c :=
  rfl

/-- Broadcasting an operand's buffer over the promoted axes with
full-pass/new-axis selectors yields the per-axis broadcast sizes. -/
theorem side_shape_bcast :
    ∀ (P : List Dimension) (pairs : List (Dimension × UnitRange)) (shape : List Nat),
      P.Nodup → pairs.length = shape.length → (pairs.map Prod.fst).Sublist P →
      sliceShape (P.map (fun d => if d ∈ pairs.map Prod.fst then Sel.all else Sel.newaxis))
          shape = P.map (bsizeD pairs shape) := by
  intro P
  induction P with
  | nil =>
      intro pairs shape hnd hlen hsub
      have hp : pairs = [] := List.map_eq_nil_iff.mp (List.sublist_nil.mp hsub)
      subst hp
      have hs : shape = [] := by simpa using hlen.symm
      subst hs
      rfl
  | cons d P' ih =>
      intro pairs shape hnd hlen hsub
      rw [List.map_cons, List.map_cons]
      by_cases hmem : d ∈ pairs.map Prod.fst
      · rcases List.sublist_cons_iff.mp hsub with h1 | ⟨r, he, hr⟩
        · exact absurd (h1.subset hmem) (List.nodup_cons.mp hnd).1
        · cases pairs with
          | nil => simp at he
          | cons p pr =>
            rw [List.map_cons] at he
            injection he with hd1 hr1
            cases shape with
            | nil => simp at hlen
            | cons s sh =>
              have hsub' : (pr.map Prod.fst).Sublist P' := by rw [hr1]; exact hr
              have hdP' : ¬ d ∈ P' := (List.nodup_cons.mp hnd).1
              rw [if_pos hmem, sliceShape_cons_all, bsizeD_cons_hit p s pr sh d hd1]
              have htail1 : P'.map
                    (fun d' => if d' ∈ List.map Prod.fst (p :: pr) then Sel.all else Sel.newaxis)
                  = P'.map (fun d' => if d' ∈ pr.map Prod.fst then Sel.all else Sel.newaxis) :=
                List.map_eq_map_iff.mpr (fun d' hd' =>
                  if_congr (by
                    rw [List.map_cons, List.mem_cons]
                    exact or_iff_right (fun he2 => hdP' ((he2.trans hd1) ▸ hd'))) rfl rfl)
              have htail2 : P'.map (bsizeD (p :: pr) (s :: sh)) = P'.map (bsizeD pr sh) :=
                List.map_eq_map_iff.mpr (fun d' hd' =>
                  bsizeD_cons_miss p s pr sh d'
                    (fun he2 => hdP' (by rw [← he2, hd1] at hd'; exact hd')))
              rw [htail1, htail2,
                  ih pr sh (List.nodup_cons.mp hnd).2 (by simpa using hlen) hsub']
      · have hsub2 : (pairs.map Prod.fst).Sublist P' := by
          rcases List.sublist_cons_iff.mp hsub with h1 | ⟨r, he, hr⟩
          · exact h1
          · exact absurd (he ▸ List.mem_cons_self d r) hmem
        rw [if_neg hmem, sliceShape_cons_newaxis, bsizeD_not_mem pairs shape d hmem,
            ih pairs shape (List.nodup_cons.mp hnd).2 hlen hsub2]

/-- Zipping two pointwise images of one list combines pointwise. -/
theorem zipWith_map_same (f : B → C → D) (g : A → B) (h : A → C) (l : List A) :
    List.zipWith f (l.map g) (l.map h) = l.map (fun x => f (g x) (h x)) := by
  induction l with
  | nil => rfl
  | cons a t ih => simp [ih]

/-- The broadcast range and size of an axis the operand has are the
range and buffer size of one of its own (axis, size) entries. -/
theorem brangeD_bsizeD_mem (d : Dimension) :
    ∀ (pairs : List (Dimension × UnitRange)) (shape : List Nat),
      pairs.length = shape.length → d ∈ pairs.map Prod.fst →
      ∃ x ∈ List.zip pairs shape,
        x.1.1 = d ∧ x.1.2 = brangeD pairs d ∧ x.2 = bsizeD pairs shape d := by
  intro pairs
  induction pairs with
  | nil => intro shape _ hmem; simp at hmem
  | cons p pr ih =>
      intro shape hlen hmem
      cases shape with
      | nil => simp at hlen
      | cons s sh =>
        by_cases hpd : p.1 = d
        · exact ⟨(p, s), by rw [List.zip_cons_cons]; exact List.mem_cons_self _ _,
            hpd, (brangeD_cons_hit p pr d hpd).symm, (bsizeD_cons_hit p s pr sh d hpd).symm⟩
        · have hmem' : d ∈ pr.map Prod.fst := by
            rw [List.map_cons, List.mem_cons] at hmem
            exact hmem.resolve_left (fun he => hpd he.symm)
          obtain ⟨x, hx, h1, h2, h3⟩ := ih sh (by simpa using hlen) hmem'
          exact ⟨x, by rw [List.zip_cons_cons]; exact List.mem_cons_of_mem _ hx,
            h1, by rw [h2, brangeD_cons_miss p pr d hpd],
            by rw [h3, bsizeD_cons_miss p s pr sh d hpd]⟩

/-- The broadcast of a well-formed operand is itself well-formed per
axis: range length matches the broadcast size (or a size-1 placeholder
carries the unbounded range), sizes stay small, ranges stay sane. -/
theorem side_wf_bcast (pairs : List (Dimension × UnitRange)) (shape : List Nat)
    (hlen : pairs.length = shape.length)
    (hwf : ∀ x ∈ List.zip pairs shape,
      ((x.1.2.len = (x.2 : Int) ∨ (x.2 = 1 ∧ x.1.2 = UnitRange.infinity))
        ∧ x.2 < INF.toNat ∧ rangeOk x.1.2 = true))
    (d : Dimension) :
    ((brangeD pairs d).len = ((bsizeD pairs shape d : Nat) : Int)
      ∨ (bsizeD pairs shape d = 1 ∧ brangeD pairs d = UnitRange.infinity))
    ∧ bsizeD pairs shape d < INF.toNat ∧ rangeOk (brangeD pairs d) = true := by
  by_cases hmem : d ∈ pairs.map Prod.fst
  · obtain ⟨x, hx, _, h2, h3⟩ := brangeD_bsizeD_mem d pairs shape hlen hmem
    rw [← h2, ← h3]
    exact hwf x hx
  · rw [brangeD_not_mem pairs d hmem, bsizeD_not_mem pairs shape d hmem]
    refine ⟨Or.inr ⟨rfl, rfl⟩, by norm_num [INF], by decide⟩

/-- An intersection can only be the unbounded placeholder if the left
operand is itself unbounded (given that the left operand is sane). -/
theorem inter_eq_inf_left (w₁ w₂ : UnitRange) (hok : rangeOk w₁ = true)
    (h : w₁.inter w₂ = UnitRange.infinity) : w₁ = UnitRange.infinity := by
  rw [rangeOk, Bool.or_eq_true, beq_iff_eq] at hok
  rcases hok with hb | he
  · exfalso
    rw [UnitRange.bounded, Bool.and_eq_true, Bool.and_eq_true] at hb
    have hb1 : -INF < w₁.start := by exact_mod_cast of_decide_eq_true hb.1.1
    unfold UnitRange.inter unitRange at h
    split at h
    · have h1 : max w₁.start w₂.start = UnitRange.infinity.start := congrArg UnitRange.start h
      rw [show UnitRange.infinity.start = -INF from rfl] at h1
      omega
    · have h1 : (0 : Int) = UnitRange.infinity.start := congrArg UnitRange.start h
      rw [show UnitRange.infinity.start = -INF from rfl] at h1
      have : (0 : Int) < INF := by norm_num [INF]
      omega
  · exact he

/-- The per-axis `from_array` check for the result of a binary operation
over the intersection domain: the intersected length equals the
broadcast of the two sliced sizes, or the axis is a size-1 unbounded
placeholder on both sides. -/
theorem inter_axis_check (w₁ w₂ : UnitRange) :
    ((w₁.inter w₂).len
        = ((bcastDim (if w₁ = UnitRange.infinity then 1 else (w₁.inter w₂).lenNat)
            (if w₂ = UnitRange.infinity then 1 else (w₁.inter w₂).lenNat) : Nat) : Int))
    ∨ ((bcastDim (if w₁ = UnitRange.infinity then 1 else (w₁.inter w₂).lenNat)
          (if w₂ = UnitRange.infinity then 1 else (w₁.inter w₂).lenNat)) = 1
        ∧ w₁.inter w₂ = UnitRange.infinity) := by
  have hnn : 0 ≤ (w₁.inter w₂).len := inter_len_nonneg w₁ w₂
  have hcast : ((w₁.inter w₂).lenNat : Int) = (w₁.inter w₂).len := by
    unfold UnitRange.lenNat UnitRange.len at hnn ⊢
    omega
  by_cases hw₁ : w₁ = UnitRange.infinity
  · by_cases hw₂ : w₂ = UnitRange.infinity
    · rw [if_pos hw₁, if_pos hw₂, hw₁, hw₂, inter_inf_inf]
      exact Or.inr ⟨rfl, rfl⟩
    · rw [if_pos hw₁, if_neg hw₂]
      rw [show bcastDim 1 ((w₁.inter w₂).lenNat) = (w₁.inter w₂).lenNat from rfl]
      exact Or.inl hcast.symm
  · rw [if_neg hw₁]
    by_cases hw₂ : w₂ = UnitRange.infinity
    · rw [if_pos hw₂, bcastDim_one_right]
      exact Or.inl hcast.symm
    · rw [if_neg hw₂, bcastDim_same]
      exact Or.inl hcast.symm

/-- Lockstep shape computation for a selector list with only full passes
and contiguous slices, tabulated over one index list. -/
theorem sliceShape_all_sl (f : Dimension → Sel) (g : Dimension → Nat) (h : Dimension → Nat) :
    ∀ P : List Dimension,
      (∀ d ∈ P, (f d = Sel.all ∧ h d = g d)
        ∨ ∃ a b, f d = Sel.sl a b ∧ h d = sliceLenPy a b (g d)) →
      sliceShape (P.map f) (P.map g) = P.map h := by
  intro P
  induction P with
  | nil => intro _; rfl
  | cons d P' ih =>
      intro hax
      rw [List.map_cons, List.map_cons, List.map_cons]
      rcases hax d (List.mem_cons_self _ _) with ⟨hf, hh⟩ | ⟨a, b, hf, hh⟩
      · rw [hf, sliceShape_cons_all, hh, ih (fun e he => hax e (List.mem_cons_of_mem _ he))]
      · rw [hf, sliceShape_cons_sl, hh, ih (fun e he => hax e (List.mem_cons_of_mem _ he))]

/-- Lockstep coordinate computation for a selector list with only full
passes and contiguous slices, tabulated over one index list. -/
theorem sliceCoord_all_sl (f : Dimension → Sel) (g : Dimension → Nat) (c h : Dimension → Nat) :
    ∀ P : List Dimension,
      (∀ d ∈ P, (f d = Sel.all ∧ h d = c d)
        ∨ ∃ a b, f d = Sel.sl a b ∧ h d = normStart a (g d) + c d) →
      sliceCoord (P.map f) (P.map g) (P.map c) = P.map h := by
  intro P
  induction P with
  | nil => intro _; rfl
  | cons d P' ih =>
      intro hax
      rw [List.map_cons, List.map_cons, List.map_cons, List.map_cons]
      rcases hax d (List.mem_cons_self _ _) with ⟨hf, hh⟩ | ⟨a, b, hf, hh⟩
      · rw [hf, sliceCoord_cons_all, hh, ih (fun e he => hax e (List.mem_cons_of_mem _ he))]
      · rw [hf, sliceCoord_cons_sl, hh, ih (fun e he => hax e (List.mem_cons_of_mem _ he))]

/-- Relative coordinate in an operand's broadcast buffer of an absolute
coordinate of the intersection region (0 on inserted/placeholder axes,
offset from the broadcast range's start otherwise). -/
def bcoordD (R : Dimension → UnitRange) (pairs : List (Dimension × UnitRange))
    (shape : List Nat) (σ : Dimension → Int) (d : Dimension) : Nat :=
  if brangeD pairs d = UnitRange.infinity then 0
  else normStart ((R d).start - (brangeD pairs d).start) (bsizeD pairs shape d)
       + (if esizeD R pairs d = 1 then 0 else (σ d - (R d).start).toNat)

/-- Slicing an operand's broadcast buffer down to the intersected ranges
yields the per-axis intersected sizes. -/
theorem side_shape_slice (R : Dimension → UnitRange) (pairs : List (Dimension × UnitRange))
    (shape : List Nat) (P : List Dimension)
    (hwfP : ∀ d ∈ P,
      ((brangeD pairs d).len = ((bsizeD pairs shape d : Nat) : Int)
        ∨ (bsizeD pairs shape d = 1 ∧ brangeD pairs d = UnitRange.infinity))
      ∧ bsizeD pairs shape d < INF.toNat)
    (hR : ∀ d ∈ P, (R d).start ≤ (R d).stop ∧
      ((brangeD pairs d).start ≤ (R d).start ∧ (R d).stop ≤ (brangeD pairs d).stop
        ∨ R d = ⟨0, 0⟩)) :
    sliceShape
      (P.map (fun d => if brangeD pairs d = UnitRange.infinity then Sel.all
        else Sel.sl ((R d).start - (brangeD pairs d).start)
                    ((R d).stop - (brangeD pairs d).start)))
      (P.map (bsizeD pairs shape)) = P.map (esizeD R pairs) := by
  apply sliceShape_all_sl
  intro d hd
  by_cases hbr : brangeD pairs d = UnitRange.infinity
  · refine Or.inl ⟨if_pos hbr, ?_⟩
    rw [esizeD, if_pos hbr]
    rcases (hwfP d hd).1 with hlen | ⟨hs1, _⟩
    · exfalso
      rw [hbr] at hlen
      have hsb := (hwfP d hd).2
      have hINF : INF = (4611686018427387904 : Int) := by norm_num [INF]
      have hINFn : INF.toNat = 4611686018427387904 := by rw [hINF]; rfl
      rw [show UnitRange.infinity.len = 2 * INF from by norm_num [UnitRange.infinity, UnitRange.len, INF]] at hlen
      rw [hINFn] at hsb
      rw [hINF] at hlen
      omega
    · exact hs1.symm
  · refine Or.inr ⟨_, _, if_neg hbr, ?_⟩
    rw [esizeD, if_neg hbr]
    have hlen : (brangeD pairs d).len = ((bsizeD pairs shape d : Nat) : Int) :=
      ((hwfP d hd).1).resolve_right (fun hc => hbr hc.2)
    rcases (hR d hd).2 with ⟨hc1, hc2⟩ | hz
    · exact (sliceLenPy_sub (brangeD pairs d) (R d) (bsizeD pairs shape d)
        (by rw [← hlen]; rfl) hc1 (hR d hd).1 hc2).symm
    · rw [hz]
      rw [show ((⟨0, 0⟩ : UnitRange).start - (brangeD pairs d).start)
            = ((⟨0, 0⟩ : UnitRange).stop - (brangeD pairs d).start) from rfl]
      rw [sliceLenPy_refl]
      rfl

/-- Applying the intersected-range selectors to the broadcast buffer
transforms the intersection-relative coordinates of an assignment into
broadcast-relative ones. -/
theorem side_coord_slice (R : Dimension → UnitRange) (pairs : List (Dimension × UnitRange))
    (shape : List Nat) (σ : Dimension → Int) (P : List Dimension) :
    sliceCoord
      (P.map (fun d => if brangeD pairs d = UnitRange.infinity then Sel.all
        else Sel.sl ((R d).start - (brangeD pairs d).start)
                    ((R d).stop - (brangeD pairs d).start)))
      (P.map (bsizeD pairs shape))
      (P.map (fun d => if esizeD R pairs d = 1 then 0 else (σ d - (R d).start).toNat))
      = P.map (bcoordD R pairs shape σ) := by
  apply sliceCoord_all_sl
  intro d _
  by_cases hbr : brangeD pairs d = UnitRange.infinity
  · refine Or.inl ⟨if_pos hbr, ?_⟩
    rw [bcoordD, if_pos hbr, esizeD, if_pos hbr]
    rfl
  · exact Or.inr ⟨_, _, if_neg hbr, by rw [bcoordD, if_neg hbr]⟩

/-- Mapping coordinates back through the broadcast selectors: full-pass
axes keep their coordinate, inserted axes drop theirs, leaving exactly
one coordinate per operand buffer axis. -/
theorem side_coord_bcast :
    ∀ (P : List Dimension) (pairs : List (Dimension × UnitRange)) (shape : List Nat)
      (bc : Dimension → Nat),
      P.Nodup → pairs.length = shape.length → (pairs.map Prod.fst).Sublist P →
      sliceCoord (P.map (fun d => if d ∈ pairs.map Prod.fst then Sel.all else Sel.newaxis))
        shape (P.map bc)
      = (List.zip pairs shape).map (fun x => bc x.1.1) := by
  intro P
  induction P with
  | nil =>
      intro pairs shape bc hnd hlen hsub
      have hp : pairs = [] := List.map_eq_nil_iff.mp (List.sublist_nil.mp hsub)
      subst hp
      have hs : shape = [] := by simpa using hlen.symm
      subst hs
      rfl
  | cons d P' ih =>
      intro pairs shape bc hnd hlen hsub
      rw [List.map_cons, List.map_cons]
      by_cases hmem : d ∈ pairs.map Prod.fst
      · rcases List.sublist_cons_iff.mp hsub with h1 | ⟨r, he, hr⟩
        · exact absurd (h1.subset hmem) (List.nodup_cons.mp hnd).1
        · cases pairs with
          | nil => simp at he
          | cons p pr =>
            rw [List.map_cons] at he
            injection he with hd1 hr1
            cases shape with
            | nil => simp at hlen
            | cons s sh =>
              have hsub' : (pr.map Prod.fst).Sublist P' := by rw [hr1]; exact hr
              have hdP' : ¬ d ∈ P' := (List.nodup_cons.mp hnd).1
              have htail1 : P'.map
                    (fun d' => if d' ∈ List.map Prod.fst (p :: pr) then Sel.all else Sel.newaxis)
                  = P'.map (fun d' => if d' ∈ pr.map Prod.fst then Sel.all else Sel.newaxis) :=
                List.map_eq_map_iff.mpr (fun d' hd' =>
                  if_congr (by
                    rw [List.map_cons, List.mem_cons]
                    exact or_iff_right (fun he2 => hdP' ((he2.trans hd1) ▸ hd'))) rfl rfl)
              rw [if_pos hmem, sliceCoord_cons_all, List.zip_cons_cons, htail1]
              rw [List.map_cons]
              refine congrArg₂ List.cons (congrArg bc hd1).symm ?_
              exact ih pr sh bc (List.nodup_cons.mp hnd).2 (by simpa using hlen) hsub'
      · have hsub2 : (pairs.map Prod.fst).Sublist P' := by
          rcases List.sublist_cons_iff.mp hsub with h1 | ⟨r, he, hr⟩
          · exact h1
          · exact absurd (he ▸ List.mem_cons_self d r) hmem
        rw [if_neg hmem, sliceCoord_cons_newaxis,
            ih pairs shape bc (List.nodup_cons.mp hnd).2 hlen hsub2]

/-- In a zip of a duplicate-free pair list with its shape, `find?` at a
member's dimension returns that member. -/
theorem find?_zip_of_mem_nodup :
    ∀ (pairs : List (Dimension × UnitRange)) (shape : List Nat),
      (pairs.map Prod.fst).Nodup →
      ∀ x ∈ List.zip pairs shape,
        (List.zip pairs shape).find? (fun y => y.1.1 == x.1.1) = some x := by
  intro pairs
  induction pairs with
  | nil => intro shape _ x hx; simp at hx
  | cons p pr ih =>
      intro shape hnd x hx
      cases shape with
      | nil => simp at hx
      | cons s sh =>
          rw [List.zip_cons_cons] at hx ⊢
          rcases List.mem_cons.mp hx with rfl | hmem
          · rw [List.find?_cons_of_pos _ (by simp)]
          · have hne : ¬ ((p, s).1.1 == x.1.1) = true := by
              simp only [beq_iff_eq]
              intro he
              rw [List.map_cons, List.nodup_cons] at hnd
              exact hnd.1 (he ▸ List.mem_map_of_mem Prod.fst (List.of_mem_zip hmem).1)
            exact (@List.find?_cons_of_neg _ (fun y => y.1.1 == x.1.1) (p, s)
                (List.zip pr sh) hne).trans
              (ih sh (by rw [List.map_cons, List.nodup_cons] at hnd; exact hnd.2) x hmem)

/-- At an axis the operand has, the broadcast-relative coordinate of an
in-range absolute coordinate is the operand's own relative buffer
coordinate. -/
theorem bcoordD_eq_relc (R : Dimension → UnitRange) (pairs : List (Dimension × UnitRange))
    (shape : List Nat) (σ : Dimension → Int)
    (hnd : (pairs.map Prod.fst).Nodup)
    (x : (Dimension × UnitRange) × Nat) (hx : x ∈ List.zip pairs shape)
    (hwfx : (x.1.2.len = (x.2 : Int) ∨ (x.2 = 1 ∧ x.1.2 = UnitRange.infinity))
      ∧ x.2 < INF.toNat ∧ rangeOk x.1.2 = true)
    (hR : (R x.1.1).start ≤ (R x.1.1).stop ∧
      ((brangeD pairs x.1.1).start ≤ (R x.1.1).start
        ∧ (R x.1.1).stop ≤ (brangeD pairs x.1.1).stop ∨ R x.1.1 = ⟨0, 0⟩))
    (hσ : (R x.1.1).start ≤ σ x.1.1 ∧ σ x.1.1 < (R x.1.1).stop) :
    bcoordD R pairs shape σ x.1.1 = fieldRelCoord x.1.2 x.2 (σ x.1.1) := by
  have hINF : INF = (4611686018427387904 : Int) := by norm_num [INF]
  have hINFn : INF.toNat = 4611686018427387904 := by rw [hINF]; rfl
  have hbrx : brangeD pairs x.1.1 = x.1.2 := by
    unfold brangeD
    rw [find?_of_mem_nodup pairs hnd x.1 (List.of_mem_zip hx).1]
    rfl
  have hbsx : bsizeD pairs shape x.1.1 = x.2 := by
    unfold bsizeD
    rw [find?_zip_of_mem_nodup pairs shape hnd x hx]
  have hsb : x.2 < INF.toNat := hwfx.2.1
  unfold bcoordD
  by_cases hbr : brangeD pairs x.1.1 = UnitRange.infinity
  · rw [if_pos hbr]
    have hinf : x.1.2 = UnitRange.infinity := hbrx.symm.trans hbr
    have hs1 : x.2 = 1 := by
      rcases hwfx.1 with hlen2 | ⟨h1, _⟩
      · exfalso
        rw [hinf,
            show UnitRange.infinity.len = 2 * INF from
              by norm_num [UnitRange.infinity, UnitRange.len, INF]] at hlen2
        rw [hINFn] at hsb
        rw [hINF] at hlen2
        omega
      · exact h1
    rw [fieldRelCoord, if_pos ⟨hs1, hinf⟩]
  · rw [if_neg hbr]
    have hinf : x.1.2 ≠ UnitRange.infinity := fun hc => hbr (hbrx.trans hc)
    have hlenx : x.1.2.stop - x.1.2.start = (x.2 : Int) :=
      hwfx.1.resolve_right (fun hc => hinf hc.2)
    rw [relc_of_ne_inf x.1.2 x.2 (σ x.1.1) hinf]
    rcases hR.2 with ⟨h1, h2⟩ | hz
    · rw [hbrx] at h1 h2
      rw [esizeD, if_neg hbr, hbrx, hbsx]
      have hR1 := hR.1
      have hσ1 := hσ.1
      have hσ2 := hσ.2
      rw [normStart_of_bounds _ _ (by omega) (by omega)]
      by_cases he1 : (R x.1.1).lenNat = 1
      · rw [if_pos he1]
        have hlN : ((R x.1.1).stop - (R x.1.1).start).toNat = 1 := he1
        omega
      · rw [if_neg he1]
        omega
    · exfalso
      have h1 := hσ.1
      have h2 := hσ.2
      rw [hz] at h1 h2
      have h1' : (0 : Int) ≤ σ x.1.1 := h1
      have h2' : σ x.1.1 < 0 := h2
      omega

/-- `_broadcast` of a well-formed field over promoted axes succeeds and
yields the field over the per-axis broadcast ranges wrapping the buffer
indexed with full-pass/new-axis selectors. -/
theorem broadcast_ok {α : Type} (f : BaseNdArrayField α) (P : List Dimension)
    (hnd : P.Nodup) (hlen : f.domain.pairs.length = f.ndarray.shape.length)
    (hsub : (f.domain.pairs.map Prod.fst).Sublist P)
    (hwf : ∀ x ∈ List.zip f.domain.pairs f.ndarray.shape,
      ((x.1.2.len = (x.2 : Int) ∨ (x.2 = 1 ∧ x.1.2 = UnitRange.infinity))
        ∧ x.2 < INF.toNat ∧ rangeOk x.1.2 = true)) :
    _broadcast f P = Except.ok
      ⟨⟨P.map (fun d => (d, brangeD f.domain.pairs d))⟩,
       f.ndarray.getItem (P.map (fun d =>
         if d ∈ f.domain.pairs.map Prod.fst then Sel.all else Sel.newaxis))⟩ := by
  have hsels : P.map (fun d => if f.domain.hasDim d then Sel.all else Sel.newaxis)
      = P.map (fun d => if d ∈ f.domain.pairs.map Prod.fst then Sel.all else Sel.newaxis) :=
    List.map_eq_map_iff.mpr (fun d _ => if_congr
      (by unfold Domain.hasDim Domain.dims; simp) rfl rfl)
  have hzip : List.zip P (P.map (fun d => (f.domain.lookupRange d).getD UnitRange.infinity))
      = P.map (fun d => (d, brangeD f.domain.pairs d)) := zip_self_map P _
  have hshape : (f.ndarray.getItem (P.map (fun d =>
        if d ∈ f.domain.pairs.map Prod.fst then Sel.all else Sel.newaxis))).shape
      = P.map (bsizeD f.domain.pairs f.ndarray.shape) :=
    side_shape_bcast P f.domain.pairs f.ndarray.shape hnd hlen hsub
  unfold _broadcast _compute_new_domain_info
  dsimp only
  rw [hsels, hzip]
  unfold from_array
  rw [if_pos ?hcond]
  case hcond =>
    constructor
    · rw [hshape]
      simp
    · rw [hshape]
      rw [show (⟨P.map (fun d => (d, brangeD f.domain.pairs d))⟩ : Domain).ranges
            = (P.map (fun d => (d, brangeD f.domain.pairs d))).map Prod.snd from rfl]
      rw [List.map_map]
      rw [show ((Prod.snd ∘ fun d => (d, brangeD f.domain.pairs d)) : Dimension → UnitRange)
            = (fun d => brangeD f.domain.pairs d) from rfl]
      rw [List.zip_map' (fun d => brangeD f.domain.pairs d)
            (bsizeD f.domain.pairs f.ndarray.shape) P]
      apply List.all_eq_true.mpr
      intro y hy
      obtain ⟨d, hd, rfl⟩ := List.mem_map.mp hy
      have hax := side_wf_bcast f.domain.pairs f.ndarray.shape hlen hwf d
      rcases hax.1 with h | ⟨h1, h2⟩
      · simp [h]
      · simp [h1, h2]
  rfl

/-- Translating the intersection domain (every promoted axis named with
its intersected range) against a broadcast field's domain yields one
full-pass or offset-slice selector per promoted axis. -/
theorem slices_of_bcast (Rf w : Dimension → UnitRange) (P : List Dimension) (hnd : P.Nodup) :
    _get_slices_from_domain_slice ⟨P.map (fun d => (d, w d))⟩
        (P.map (fun d => (d, EntryVal.rng (Rf d))))
      = Except.ok (P.map (fun d => if w d = UnitRange.infinity then Sel.all
          else Sel.sl ((Rf d).start - (w d).start) ((Rf d).stop - (w d).start))) := by
  unfold _get_slices_from_domain_slice
  rw [slicesGo_eq_spec (⟨P.map (fun d => (d, w d))⟩ : Domain)
        (P.map (fun d => (d, EntryVal.rng (Rf d))))
        (⟨P.map (fun d => (d, w d))⟩ : Domain).pairs 0 rfl]
  rw [slicesSpecGo_all_rng _ Rf _ ?hlook]
  case hlook =>
    intro p hp
    obtain ⟨d, hd, rfl⟩ := List.mem_map.mp hp
    exact lookupEntry_map_self (fun e => EntryVal.rng (Rf e)) P hnd d hd
  rw [List.map_map]
  rfl

/-- Reading the broadcast-and-sliced buffer of an operand at the
intersection-relative coordinates of an in-range assignment gives the
operand's own value at that assignment. -/
theorem side_value {α : Type} (f : BaseNdArrayField α) (P : List Dimension)
    (Rf : Dimension → UnitRange) (σ : Dimension → Int)
    (hnd : P.Nodup) (hndf : (f.domain.pairs.map Prod.fst).Nodup)
    (hlen : f.domain.pairs.length = f.ndarray.shape.length)
    (hsub : (f.domain.pairs.map Prod.fst).Sublist P)
    (hwf : ∀ x ∈ List.zip f.domain.pairs f.ndarray.shape,
      ((x.1.2.len = (x.2 : Int) ∨ (x.2 = 1 ∧ x.1.2 = UnitRange.infinity))
        ∧ x.2 < INF.toNat ∧ rangeOk x.1.2 = true))
    (hRf : ∀ d ∈ P, (Rf d).start ≤ (Rf d).stop ∧
      ((brangeD f.domain.pairs d).start ≤ (Rf d).start
        ∧ (Rf d).stop ≤ (brangeD f.domain.pairs d).stop ∨ Rf d = ⟨0, 0⟩))
    (hσ : ∀ d ∈ P, (Rf d).start ≤ σ d ∧ σ d < (Rf d).stop) :
    ((f.ndarray.getItem (P.map (fun d =>
        if d ∈ f.domain.pairs.map Prod.fst then Sel.all else Sel.newaxis))).getItem
      (P.map (fun d => if brangeD f.domain.pairs d = UnitRange.infinity then Sel.all
        else Sel.sl ((Rf d).start - (brangeD f.domain.pairs d).start)
                    ((Rf d).stop - (brangeD f.domain.pairs d).start)))).val
      (P.map (fun d => if esizeD Rf f.domain.pairs d = 1 then 0
        else (σ d - (Rf d).start).toNat))
    = fieldValueAt f σ := by
  rw [show ((f.ndarray.getItem (P.map (fun d =>
        if d ∈ f.domain.pairs.map Prod.fst then Sel.all else Sel.newaxis))).getItem
      (P.map (fun d => if brangeD f.domain.pairs d = UnitRange.infinity then Sel.all
        else Sel.sl ((Rf d).start - (brangeD f.domain.pairs d).start)
                    ((Rf d).stop - (brangeD f.domain.pairs d).start)))).val
      (P.map (fun d => if esizeD Rf f.domain.pairs d = 1 then 0
        else (σ d - (Rf d).start).toNat))
    = f.ndarray.val (sliceCoord (P.map (fun d =>
        if d ∈ f.domain.pairs.map Prod.fst then Sel.all else Sel.newaxis)) f.ndarray.shape
        (sliceCoord (P.map (fun d => if brangeD f.domain.pairs d = UnitRange.infinity then Sel.all
            else Sel.sl ((Rf d).start - (brangeD f.domain.pairs d).start)
                        ((Rf d).stop - (brangeD f.domain.pairs d).start)))
          (sliceShape (P.map (fun d =>
            if d ∈ f.domain.pairs.map Prod.fst then Sel.all else Sel.newaxis)) f.ndarray.shape)
          (P.map (fun d => if esizeD Rf f.domain.pairs d = 1 then 0
            else (σ d - (Rf d).start).toNat)))) from rfl]
  rw [side_shape_bcast P f.domain.pairs f.ndarray.shape hnd hlen hsub]
  rw [side_coord_slice Rf f.domain.pairs f.ndarray.shape σ P]
  rw [side_coord_bcast P f.domain.pairs f.ndarray.shape
        (bcoordD Rf f.domain.pairs f.ndarray.shape σ) hnd hlen hsub]
  rw [List.map_eq_map_iff.mpr (fun x hx => bcoordD_eq_relc Rf f.domain.pairs f.ndarray.shape σ
        hndf x hx (hwf x hx)
        (hRf x.1.1 (hsub.subset (List.mem_map_of_mem Prod.fst (List.of_mem_zip hx).1)))
        (hσ x.1.1 (hsub.subset (List.mem_map_of_mem Prod.fst (List.of_mem_zip hx).1))))]
  rw [fieldValueAt, fieldCoords, zipWith_eq_map_zip]

/-- Unpacking field well-formedness into its per-axis content. -/
theorem wfb_unpack {α : Type} (f : BaseNdArrayField α) (h : wfb f = true) :
    f.domain.dims.Nodup ∧ f.domain.pairs.length = f.ndarray.shape.length ∧
    ∀ x ∈ List.zip f.domain.pairs f.ndarray.shape,
      ((x.1.2.len = (x.2 : Int) ∨ (x.2 = 1 ∧ x.1.2 = UnitRange.infinity))
        ∧ x.2 < INF.toNat ∧ rangeOk x.1.2 = true) := by
  rw [wfb, Bool.and_eq_true, Bool.and_eq_true, Bool.and_eq_true, Bool.and_eq_true] at h
  obtain ⟨⟨⟨⟨h1, h2⟩, h3⟩, h4⟩, h5⟩ := h
  refine ⟨of_decide_eq_true h1, beq_iff_eq.mp h2, ?_⟩
  intro x hx
  refine ⟨?_, ?_, ?_⟩
  · have hx2 : (x.1.2, x.2) ∈ List.zip f.domain.ranges f.ndarray.shape := by
      rw [show f.domain.ranges = f.domain.pairs.map Prod.snd from rfl, List.zip_map_left]
      exact List.mem_map_of_mem (Prod.map Prod.snd id) hx
    have h6 := List.all_eq_true.mp h3 _ hx2
    simp only [Bool.or_eq_true, Bool.and_eq_true, beq_iff_eq] at h6
    exact h6
  · exact of_decide_eq_true (List.all_eq_true.mp h5 x.2 (List.of_mem_zip hx).2)
  · exact List.all_eq_true.mp h4 x.1.2 (List.mem_map_of_mem Prod.snd (List.of_mem_zip hx).1)

/-- The per-axis intersected range of two domains after mutual
broadcasting (the range function of `Domain.inter`). -/
def interD (a b : Domain) (d : Dimension) : UnitRange :=
  UnitRange.inter (brangeD a.pairs d) (brangeD b.pairs d)

/-- Shape of a basic-indexing result. -/
theorem getItem_shape {α : Type} (x : NdArray α) (sels : List Sel) :
    (x.getItem sels).shape = sliceShape sels x.shape := rfl

/-- Value of a basic-indexing result. -/
theorem getItem_val {α : Type} (x : NdArray α) (sels : List Sel) (c : List Nat) :
    (x.getItem sels).val c = x.val (sliceCoord sels x.shape c) := rfl

/-- Shape of a broadcast binary operation. -/
theorem binop_shape {α : Type} (op : α → α → α) (x y : NdArray α) :
    (x.binop op y).shape = List.zipWith bcastDim x.shape y.shape := rfl

/-- Value of a broadcast binary operation. -/
theorem binop_val {α : Type} (op : α → α → α) (x y : NdArray α) (c : List Nat) :
    (x.binop op y).val c = op (x.val (bcastCoord x.shape c)) (y.val (bcastCoord y.shape c)) := rfl

/-- An intersection can only be the unbounded placeholder if the right
operand is itself unbounded (given that the right operand is sane). -/
theorem inter_eq_inf_right (w₁ w₂ : UnitRange) (hok : rangeOk w₂ = true)
    (h : w₁.inter w₂ = UnitRange.infinity) : w₂ = UnitRange.infinity := by
  rw [rangeOk, Bool.or_eq_true, beq_iff_eq] at hok
  rcases hok with hb | he
  · exfalso
    rw [UnitRange.bounded, Bool.and_eq_true, Bool.and_eq_true] at hb
    have hb1 : -INF < w₂.start := by exact_mod_cast of_decide_eq_true hb.1.1
    unfold UnitRange.inter unitRange at h
    split at h
    · have h1 : max w₁.start w₂.start = UnitRange.infinity.start := congrArg UnitRange.start h
      rw [show UnitRange.infinity.start = -INF from rfl] at h1
      omega
    · have h1 : (0 : Int) = UnitRange.infinity.start := congrArg UnitRange.start h
      rw [show UnitRange.infinity.start = -INF from rfl] at h1
      have : (0 : Int) < INF := by norm_num [INF]
      omega
  · exact he

/-- `domain` of a literal field. -/
theorem mk_domain {α : Type} (D : Domain) (N : NdArray α) :
    (⟨D, N⟩ : BaseNdArrayField α).domain = D := rfl

/-- `ndarray` of a literal field. -/
theorem mk_ndarray {α : Type} (D : Domain) (N : NdArray α) :
    (⟨D, N⟩ : BaseNdArrayField α).ndarray = N := rfl

/-- The differing-domain branch of `_builtin_binary_op`. -/
theorem builtin_binary_op_ne {α : Type} (op : α → α → α) (a b : BaseNdArrayField α)
    (hne : a.domain ≠ b.domain) :
    _builtin_binary_op op a (BinOperand.field b) = (do
      let a_broadcasted ← _broadcast a (a.domain.inter b.domain).dims
      let b_broadcasted ← _broadcast b (a.domain.inter b.domain).dims
      let a_slices ← _get_slices_from_domain_slice a_broadcasted.domain
        (a.domain.inter b.domain).toSlice
      let b_slices ← _get_slices_from_domain_slice b_broadcasted.domain
        (a.domain.inter b.domain).toSlice
      from_array (NdArray.binop op (a_broadcasted.ndarray.getItem a_slices)
        (b_broadcasted.ndarray.getItem b_slices)) (a.domain.inter b.domain)) := by
  rw [show _builtin_binary_op op a (BinOperand.field b)
        = (if a.domain = b.domain then from_array (NdArray.binop op a.ndarray b.ndarray) a.domain
           else do
             let a_broadcasted ← _broadcast a (a.domain.inter b.domain).dims
             let b_broadcasted ← _broadcast b (a.domain.inter b.domain).dims
             let a_slices ← _get_slices_from_domain_slice a_broadcasted.domain
               (a.domain.inter b.domain).toSlice
             let b_slices ← _get_slices_from_domain_slice b_broadcasted.domain
               (a.domain.inter b.domain).toSlice
             from_array (NdArray.binop op (a_broadcasted.ndarray.getItem a_slices)
               (b_broadcasted.ndarray.getItem b_slices)) (a.domain.inter b.domain))
        from rfl]
  rw [if_neg hne]

/-- C1: a binary elementwise operation on two array-backed fields with
differing domains broadcasts both operands over the dimension-ordered
union of their axes, intersects the broadcast domains, slices both
operands down to the intersection, and returns a field over the
intersection whose value at every coordinate assignment of the
intersection is the operator applied to the two operands' values at
that assignment. -/
theorem binary_op_intersection {α : Type} (op : α → α → α) (a b : BaseNdArrayField α)
    (hwa : wfb a = true) (hwb : wfb b = true) (hne : a.domain ≠ b.domain)
    (horder : b.domain.dims.Sublist (promote_dims a.domain.dims b.domain.dims)) :
    ∃ r : BaseNdArrayField α,
      _builtin_binary_op op a (BinOperand.field b) = Except.ok r ∧
      r.domain = a.domain.inter b.domain ∧
      ∀ σ : Dimension → Int, inDomain (a.domain.inter b.domain) σ →
        fieldValueAt r σ = op (fieldValueAt a σ) (fieldValueAt b σ) := by
  obtain ⟨hndA, hlenA, hwfA⟩ := wfb_unpack a hwa
  obtain ⟨hndB, hlenB, hwfB⟩ := wfb_unpack b hwb
  set P := promote_dims a.domain.dims b.domain.dims with hPdef
  set RD := interD a.domain b.domain with hRDdef
  have hndP : P.Nodup := promote_nodup _ _ hndA hndB
  have hsubA : (a.domain.pairs.map Prod.fst).Sublist P := by
    rw [hPdef]
    exact List.sublist_append_left a.domain.dims _
  have hsubB : (b.domain.pairs.map Prod.fst).Sublist P := horder
  have hRa : ∀ d ∈ P, (RD d).start ≤ (RD d).stop ∧
      ((brangeD a.domain.pairs d).start ≤ (RD d).start
        ∧ (RD d).stop ≤ (brangeD a.domain.pairs d).stop ∨ RD d = ⟨0, 0⟩) :=
    fun d _ =>
      ⟨(inter_contained_or_empty (brangeD a.domain.pairs d) (brangeD b.domain.pairs d)).1,
       (inter_contained_or_empty (brangeD a.domain.pairs d) (brangeD b.domain.pairs d)).2.imp
         (fun h => ⟨h.1, h.2.1⟩) id⟩
  have hRb : ∀ d ∈ P, (RD d).start ≤ (RD d).stop ∧
      ((brangeD b.domain.pairs d).start ≤ (RD d).start
        ∧ (RD d).stop ≤ (brangeD b.domain.pairs d).stop ∨ RD d = ⟨0, 0⟩) :=
    fun d _ =>
      ⟨(inter_contained_or_empty (brangeD a.domain.pairs d) (brangeD b.domain.pairs d)).1,
       (inter_contained_or_empty (brangeD a.domain.pairs d) (brangeD b.domain.pairs d)).2.imp
         (fun h => ⟨h.2.2.1, h.2.2.2⟩) id⟩
  have hA := broadcast_ok a P hndP hlenA hsubA hwfA
  have hB := broadcast_ok b P hndP hlenB hsubB hwfB
  have hdims : (a.domain.inter b.domain).dims = P := by
    rw [show (a.domain.inter b.domain).dims
          = ((promote_dims a.domain.dims b.domain.dims).map
              (fun d => (d, interD a.domain b.domain d))).map Prod.fst from rfl]
    rw [List.map_map, hPdef]
    exact List.map_id _
  have hDIpairs : (a.domain.inter b.domain).pairs = P.map (fun d => (d, RD d)) := by
    rw [hPdef, hRDdef]
    rfl
  have hS : (a.domain.inter b.domain).toSlice = P.map (fun d => (d, EntryVal.rng (RD d))) := by
    rw [show (a.domain.inter b.domain).toSlice
          = ((a.domain.inter b.domain).pairs).map (fun p => (p.1, EntryVal.rng p.2)) from rfl]
    rw [hDIpairs, List.map_map]
    rfl
  have hslicesA : _get_slices_from_domain_slice
      (BaseNdArrayField.domain (α := α)
        ⟨⟨P.map (fun d => (d, brangeD a.domain.pairs d))⟩,
         a.ndarray.getItem (P.map (fun d =>
        if d ∈ a.domain.pairs.map Prod.fst then Sel.all else Sel.newaxis))⟩)
      ((a.domain.inter b.domain).toSlice)
    = Except.ok (P.map (fun d => if brangeD a.domain.pairs d = UnitRange.infinity then Sel.all
        else Sel.sl ((RD d).start - (brangeD a.domain.pairs d).start)
                    ((RD d).stop - (brangeD a.domain.pairs d).start))) := by
    rw [hS]
    exact slices_of_bcast RD (brangeD a.domain.pairs) P hndP
  have hslicesB : _get_slices_from_domain_slice
      (BaseNdArrayField.domain (α := α)
        ⟨⟨P.map (fun d => (d, brangeD b.domain.pairs d))⟩,
         b.ndarray.getItem (P.map (fun d =>
        if d ∈ b.domain.pairs.map Prod.fst then Sel.all else Sel.newaxis))⟩)
      ((a.domain.inter b.domain).toSlice)
    = Except.ok (P.map (fun d => if brangeD b.domain.pairs d = UnitRange.infinity then Sel.all
        else Sel.sl ((RD d).start - (brangeD b.domain.pairs d).start)
                    ((RD d).stop - (brangeD b.domain.pairs d).start))) := by
    rw [hS]
    exact slices_of_bcast RD (brangeD b.domain.pairs) P hndP
  have hshapeA := side_shape_bcast P a.domain.pairs a.ndarray.shape hndP hlenA hsubA
  have hshapeB := side_shape_bcast P b.domain.pairs b.ndarray.shape hndP hlenB hsubB
  have hwfPA : ∀ d ∈ P,
      ((brangeD a.domain.pairs d).len = ((bsizeD a.domain.pairs a.ndarray.shape d : Nat) : Int)
        ∨ (bsizeD a.domain.pairs a.ndarray.shape d = 1
            ∧ brangeD a.domain.pairs d = UnitRange.infinity))
      ∧ bsizeD a.domain.pairs a.ndarray.shape d < INF.toNat :=
    fun d _ => ⟨(side_wf_bcast a.domain.pairs a.ndarray.shape hlenA hwfA d).1,
      (side_wf_bcast a.domain.pairs a.ndarray.shape hlenA hwfA d).2.1⟩
  have hwfPB : ∀ d ∈ P,
      ((brangeD b.domain.pairs d).len = ((bsizeD b.domain.pairs b.ndarray.shape d : Nat) : Int)
        ∨ (bsizeD b.domain.pairs b.ndarray.shape d = 1
            ∧ brangeD b.domain.pairs d = UnitRange.infinity))
      ∧ bsizeD b.domain.pairs b.ndarray.shape d < INF.toNat :=
    fun d _ => ⟨(side_wf_bcast b.domain.pairs b.ndarray.shape hlenB hwfB d).1,
      (side_wf_bcast b.domain.pairs b.ndarray.shape hlenB hwfB d).2.1⟩
  have hsliceShapeA := side_shape_slice RD a.domain.pairs a.ndarray.shape P hwfPA hRa
  have hsliceShapeB := side_shape_slice RD b.domain.pairs b.ndarray.shape P hwfPB hRb
  have hranges : (a.domain.inter b.domain).ranges = P.map RD := by
    rw [show (a.domain.inter b.domain).ranges
          = (a.domain.inter b.domain).pairs.map Prod.snd from rfl]
    rw [hDIpairs, List.map_map]
    rfl
  have hvalue : ∀ σ : Dimension → Int, inDomain (a.domain.inter b.domain) σ →
      fieldValueAt (α := α)
        ⟨a.domain.inter b.domain,
         NdArray.binop op
      ((a.ndarray.getItem (P.map (fun d =>
        if d ∈ a.domain.pairs.map Prod.fst then Sel.all else Sel.newaxis))).getItem
      (P.map (fun d => if brangeD a.domain.pairs d = UnitRange.infinity then Sel.all
        else Sel.sl ((RD d).start - (brangeD a.domain.pairs d).start)
                    ((RD d).stop - (brangeD a.domain.pairs d).start))))
      ((b.ndarray.getItem (P.map (fun d =>
        if d ∈ b.domain.pairs.map Prod.fst then Sel.all else Sel.newaxis))).getItem
      (P.map (fun d => if brangeD b.domain.pairs d = UnitRange.infinity then Sel.all
        else Sel.sl ((RD d).start - (brangeD b.domain.pairs d).start)
                    ((RD d).stop - (brangeD b.domain.pairs d).start))))⟩ σ
      = op (fieldValueAt a σ) (fieldValueAt b σ) := by
    intro σ hσ
    have hσP : ∀ d ∈ P, (RD d).start ≤ σ d ∧ σ d < (RD d).stop := by
      intro d hd
      have hmem : (d, RD d) ∈ (a.domain.inter b.domain).pairs := by
        rw [hDIpairs]
        exact List.mem_map_of_mem _ hd
      have h0 := hσ (d, RD d) hmem
      simp only [UnitRange.containsIdx, Bool.and_eq_true, decide_eq_true_eq] at h0
      exact h0
    have hbcA : bcastCoord (P.map (esizeD RD a.domain.pairs))
        (P.map (fun d => fieldRelCoord (RD d)
          (bcastDim (esizeD RD a.domain.pairs d) (esizeD RD b.domain.pairs d)) (σ d)))
      = P.map (fun d => if esizeD RD a.domain.pairs d = 1 then 0
          else (σ d - (RD d).start).toNat) := by
      unfold bcastCoord
      rw [zipWith_map_same]
      apply List.map_eq_map_iff.mpr
      intro d _
      by_cases h1 : esizeD RD a.domain.pairs d = 1
      · rw [if_pos h1, if_pos h1]
      · rw [if_neg h1, if_neg h1]
        have hbrA : brangeD a.domain.pairs d ≠ UnitRange.infinity := fun hc =>
          h1 (by rw [show esizeD RD a.domain.pairs d
                = (if brangeD a.domain.pairs d = UnitRange.infinity then 1 else (RD d).lenNat)
                from rfl, if_pos hc])
        have hRinf : RD d ≠ UnitRange.infinity := fun hc =>
          hbrA (inter_eq_inf_left (brangeD a.domain.pairs d) (brangeD b.domain.pairs d)
            (side_wf_bcast a.domain.pairs a.ndarray.shape hlenA hwfA d).2.2 hc)
        exact relc_of_ne_inf _ _ _ hRinf
    have hbcB : bcastCoord (P.map (esizeD RD b.domain.pairs))
        (P.map (fun d => fieldRelCoord (RD d)
          (bcastDim (esizeD RD a.domain.pairs d) (esizeD RD b.domain.pairs d)) (σ d)))
      = P.map (fun d => if esizeD RD b.domain.pairs d = 1 then 0
          else (σ d - (RD d).start).toNat) := by
      unfold bcastCoord
      rw [zipWith_map_same]
      apply List.map_eq_map_iff.mpr
      intro d _
      by_cases h1 : esizeD RD b.domain.pairs d = 1
      · rw [if_pos h1, if_pos h1]
      · rw [if_neg h1, if_neg h1]
        have hbrB : brangeD b.domain.pairs d ≠ UnitRange.infinity := fun hc =>
          h1 (by rw [show esizeD RD b.domain.pairs d
                = (if brangeD b.domain.pairs d = UnitRange.infinity then 1 else (RD d).lenNat)
                from rfl, if_pos hc])
        have hRinf : RD d ≠ UnitRange.infinity := fun hc =>
          hbrB (inter_eq_inf_right (brangeD a.domain.pairs d) (brangeD b.domain.pairs d)
            (side_wf_bcast b.domain.pairs b.ndarray.shape hlenB hwfB d).2.2 hc)
        exact relc_of_ne_inf _ _ _ hRinf
    unfold fieldValueAt fieldCoords
    rw [mk_ndarray (a.domain.inter b.domain)
          (NdArray.binop op
      ((a.ndarray.getItem (P.map (fun d =>
        if d ∈ a.domain.pairs.map Prod.fst then Sel.all else Sel.newaxis))).getItem
      (P.map (fun d => if brangeD a.domain.pairs d = UnitRange.infinity then Sel.all
        else Sel.sl ((RD d).start - (brangeD a.domain.pairs d).start)
                    ((RD d).stop - (brangeD a.domain.pairs d).start))))
      ((b.ndarray.getItem (P.map (fun d =>
        if d ∈ b.domain.pairs.map Prod.fst then Sel.all else Sel.newaxis))).getItem
      (P.map (fun d => if brangeD b.domain.pairs d = UnitRange.infinity then Sel.all
        else Sel.sl ((RD d).start - (brangeD b.domain.pairs d).start)
                    ((RD d).stop - (brangeD b.domain.pairs d).start))))),
        mk_domain (a.domain.inter b.domain)
          (NdArray.binop op
      ((a.ndarray.getItem (P.map (fun d =>
        if d ∈ a.domain.pairs.map Prod.fst then Sel.all else Sel.newaxis))).getItem
      (P.map (fun d => if brangeD a.domain.pairs d = UnitRange.infinity then Sel.all
        else Sel.sl ((RD d).start - (brangeD a.domain.pairs d).start)
                    ((RD d).stop - (brangeD a.domain.pairs d).start))))
      ((b.ndarray.getItem (P.map (fun d =>
        if d ∈ b.domain.pairs.map Prod.fst then Sel.all else Sel.newaxis))).getItem
      (P.map (fun d => if brangeD b.domain.pairs d = UnitRange.infinity then Sel.all
        else Sel.sl ((RD d).start - (brangeD b.domain.pairs d).start)
                    ((RD d).stop - (brangeD b.domain.pairs d).start)))))]
    rw [hDIpairs]
    simp only [binop_shape, getItem_shape]
    rw [hshapeA, hsliceShapeA, hshapeB, hsliceShapeB,
        zipWith_map_same bcastDim (esizeD RD a.domain.pairs) (esizeD RD b.domain.pairs) P]
    rw [zipWith_map_same
          (fun (p : Dimension × UnitRange) (s : Nat) => fieldRelCoord p.2 s (σ p.1))
          (fun d => (d, RD d))
          (fun d => bcastDim (esizeD RD a.domain.pairs d) (esizeD RD b.domain.pairs d)) P]
    dsimp only
    rw [binop_val]
    simp only [getItem_shape]
    rw [hshapeA, hsliceShapeA, hshapeB, hsliceShapeB]
    rw [hbcA, hbcB]
    rw [side_value a P RD σ hndP hndA hlenA hsubA hwfA hRa hσP,
        side_value b P RD σ hndP hndB hlenB hsubB hwfB hRb hσP]
    rfl
  refine ⟨?r, ?heq, ?hdom, ?hval⟩
  case r =>
    exact ⟨a.domain.inter b.domain,
      NdArray.binop op
      ((a.ndarray.getItem (P.map (fun d =>
        if d ∈ a.domain.pairs.map Prod.fst then Sel.all else Sel.newaxis))).getItem
      (P.map (fun d => if brangeD a.domain.pairs d = UnitRange.infinity then Sel.all
        else Sel.sl ((RD d).start - (brangeD a.domain.pairs d).start)
                    ((RD d).stop - (brangeD a.domain.pairs d).start))))
      ((b.ndarray.getItem (P.map (fun d =>
        if d ∈ b.domain.pairs.map Prod.fst then Sel.all else Sel.newaxis))).getItem
      (P.map (fun d => if brangeD b.domain.pairs d = UnitRange.infinity then Sel.all
        else Sel.sl ((RD d).start - (brangeD b.domain.pairs d).start)
                    ((RD d).stop - (brangeD b.domain.pairs d).start))))⟩
  case heq =>
    rw [builtin_binary_op_ne op a b hne]
    rw [hdims, hA, ebind_ok]
    rw [hB, ebind_ok]
    rw [hslicesA, ebind_ok]
    rw [hslicesB, ebind_ok]
    rw [mk_ndarray (⟨P.map (fun d => (d, brangeD a.domain.pairs d))⟩ : Domain)
          (a.ndarray.getItem (P.map (fun d =>
        if d ∈ a.domain.pairs.map Prod.fst then Sel.all else Sel.newaxis))),
        mk_ndarray (⟨P.map (fun d => (d, brangeD b.domain.pairs d))⟩ : Domain)
          (b.ndarray.getItem (P.map (fun d =>
        if d ∈ b.domain.pairs.map Prod.fst then Sel.all else Sel.newaxis)))]
    unfold from_array
    rw [if_pos ?hcnd]
    case hcnd =>
      constructor
      · rw [hDIpairs]
        simp only [binop_shape, getItem_shape]
        rw [hshapeA, hsliceShapeA, hshapeB, hsliceShapeB,
            zipWith_map_same bcastDim (esizeD RD a.domain.pairs) (esizeD RD b.domain.pairs) P]
        simp
      · simp only [binop_shape, getItem_shape]
        rw [hshapeA, hsliceShapeA, hshapeB, hsliceShapeB,
            zipWith_map_same bcastDim (esizeD RD a.domain.pairs) (esizeD RD b.domain.pairs) P,
            hranges, List.zip_map']
        apply List.all_eq_true.mpr
        intro y hy
        obtain ⟨d, hd, rfl⟩ := List.mem_map.mp hy
        dsimp only
        rw [show esizeD RD a.domain.pairs d
              = (if brangeD a.domain.pairs d = UnitRange.infinity then 1
                 else ((brangeD a.domain.pairs d).inter (brangeD b.domain.pairs d)).lenNat)
              from rfl,
            show esizeD RD b.domain.pairs d
              = (if brangeD b.domain.pairs d = UnitRange.infinity then 1
                 else ((brangeD a.domain.pairs d).inter (brangeD b.domain.pairs d)).lenNat)
              from rfl,
            show RD d = (brangeD a.domain.pairs d).inter (brangeD b.domain.pairs d) from rfl]
        rcases inter_axis_check (brangeD a.domain.pairs d) (brangeD b.domain.pairs d)
          with h | ⟨h1, h2⟩
        · simp [h]
        · rw [h1, h2]
          decide
    rfl
  case hdom => rfl
  case hval => exact hvalue

/-- C1 witness: adding the fields over `{(I,[0,10))}` and `{(I,[5,15))}`
satisfies the theorem's hypotheses, and the intersection domain is
`{(I,[5,10))}`. -/
theorem binary_op_intersection_witness :
    (wfb fieldI010 = true ∧ wfb fieldI515 = true
      ∧ fieldI010.domain ≠ fieldI515.domain
      ∧ fieldI515.domain.dims.Sublist (promote_dims fieldI010.domain.dims fieldI515.domain.dims))
    ∧ (∃ r : BaseNdArrayField Int,
        _builtin_binary_op (fun x y => x + y) fieldI010 (BinOperand.field fieldI515)
          = Except.ok r ∧
        r.domain = fieldI010.domain.inter fieldI515.domain ∧
        ∀ σ : Dimension → Int, inDomain (fieldI010.domain.inter fieldI515.domain) σ →
          fieldValueAt r σ = fieldValueAt fieldI010 σ + fieldValueAt fieldI515 σ)
    ∧ fieldI010.domain.inter fieldI515.domain = ⟨[(dimI, ⟨5, 10⟩)]⟩ :=
  ⟨⟨by decide, by decide, by decide, by decide⟩,
   binary_op_intersection (fun x y => x + y) fieldI010 fieldI515 (by decide) (by decide)
     (by decide) (by decide),
   by decide⟩
